import Mathlib

/-!
Verification development for the Memory & Retrieval subsystem of the
ollama-ai-agent repository: a shallow embedding in Lean 4 of
`src/core/memory.py` (memory entries, conversational memory with a keyword
index, persistent memory, memory manager) and
`src/src/core/vector_store.py` (in-memory vector store and RAG query
pipeline), together with proofs about the embedded operations.

Modelling conventions, used throughout:
* Python `float` values (timestamps, importance scores, similarity scores)
  are modelled as rationals (`ℚ`); the decimal literals of the source
  (0.5, 0.7, 0.8, ...) are kept verbatim.
* Python strings are Lean `String`s; Python `s[:n]` character slicing is
  `pyStrTake n s` (take on the character list).
* `hashlib.md5(...).hexdigest()` is not re-implemented: it enters the model
  as an environment-supplied function `hash : String → String` (md5 yields
  a 32-character hex digest, which appears as a hypothesis where needed),
  and `time.time()` as an environment-supplied `now : ℚ`.
* JSON-serializable Python values (`metadata: Dict[str, Any]`, file
  contents) are modelled by the inductive type `Json`; a JSON object is an
  association list of string keys.
* Python `dict` / `set` are modelled as association lists / duplicate-free
  lists in first-insertion order, matching the deterministic iteration
  order of CPython dicts and the role sets play in the code.
* Python `list.sort` / `sorted` (Timsort) are stable sorts; they are
  modelled by Mathlib's stable `List.insertionSort` with the same key.
-/

/-- JSON values, modelling the JSON-serializable Python values stored in
entry metadata and in the persisted files of `PersistentMemory`. -/
inductive Json where
  | null : Json
  | bool (b : Bool) : Json
  | num (q : ℚ) : Json
  | str (s : String) : Json
  | arr (elems : List Json) : Json
  | obj (fields : List (String × Json)) : Json

/-- Memory entry, from the dataclass `MemoryEntry` of `src/core/memory.py`:
fields `id`, `timestamp`, `type`, `content`, `metadata`, `importance`. -/
structure MemoryEntry where
  id : String
  timestamp : ℚ
  type : String
  content : String
  metadata : List (String × Json)
  importance : ℚ

/-- Python string slicing `s[:n]` (by characters). -/
def pyStrTake (n : ℕ) (s : String) : String :=
  String.mk (s.data.take n)

/-- Python slice `l[-k:]`. For `k ≥ 1` this is the last `k` elements
(all of `l` when `k ≥ len(l)`); for `k = 0` the slice `l[-0:]` is `l[0:]`,
i.e. the whole list. -/
def pySliceLast (k : ℕ) (l : List α) : List α :=
  if k = 0 then l else l.drop (l.length - k)

/-- Call-site environment for operations of the memory module: the current
time (`time.time()`) and the md5 hex digest function
(`hashlib.md5(s.encode()).hexdigest()`), which the model does not
re-implement. -/
structure MemEnv where
  now : ℚ
  hash : String → String

namespace KeywordExtraction

/-- Stop-word set of `ConversationMemory.__init__` (`self.stop_words`). -/
def stop_words : List String :=
  ["的", "了", "是", "在", "我", "你", "他", "她", "它",
   "the", "a", "an", "and", "or", "but", "in", "on", "at",
   "to", "for", "of", "with", "by", "from", "as", "that",
   "this", "these", "those", "it", "its", "be", "have",
   "has", "had", "do", "does", "did", "will", "would", "could"]

/-- Word characters of the pattern `[\w一-鿿]`: ASCII letters,
digits, underscore, and CJK ideographs (U+4E00–U+9FFF). -/
def isWordChar (c : Char) : Bool :=
  c.isAlphanum || c = '_' || (0x4e00 ≤ c.toNat && c.toNat ≤ 0x9fff)

/-- One step of the tokenizer: `acc` is the list of finished tokens (in
order), `cur` the characters of the current token (reversed). -/
def tokenizeStep (st : List String × List Char) (c : Char) :
    List String × List Char :=
  if isWordChar c then (st.1, c :: st.2)
  else match st.2 with
    | [] => (st.1, [])
    | cs => (st.1 ++ [String.mk cs.reverse], [])

/-- The tokenization `re.findall(r'[\w一-鿿]+', text)`: maximal
runs of word characters, in order of appearance. -/
def findWords (text : String) : List String :=
  let st := text.data.foldl tokenizeStep ([], [])
  match st.2 with
  | [] => st.1
  | cs => st.1 ++ [String.mk cs.reverse]

/-- Duplicate removal keeping the first occurrence of each element, in
first-occurrence order: the key order of `collections.Counter` built by
insertion. -/
def dedupFirst [DecidableEq α] (seen : List α) : List α → List α
  | [] => []
  | x :: xs =>
    if x ∈ seen then dedupFirst seen xs else x :: dedupFirst (x :: seen) xs

end KeywordExtraction

/-- Conversational (short-term) memory state, from class
`ConversationMemory`: the capacity bound `max_entries`, the ordered entry
list, the session start time, and the inverted keyword index
`semantic_index` (keyword → entry ids, modelled as association list with
duplicate-free id lists in insertion order). -/
structure ConversationMemory where
  max_entries : ℕ
  entries : List MemoryEntry
  session_start : ℚ
  semantic_index : List (String × List String)

namespace ConversationMemory

open KeywordExtraction

/-- Fresh conversational memory, as built by
`ConversationMemory(max_entries=k)` at time `t`. -/
def init (k : ℕ) (t : ℚ) : ConversationMemory :=
  { max_entries := k, entries := [], session_start := t, semantic_index := [] }

/-- The method `_extract_keywords(text, max_keywords)`: lowercase, tokenize
with the word pattern, drop stop words and tokens shorter than 2
characters, then return the `max_keywords` most frequent tokens, ties
broken by first-occurrence order (`Counter.most_common`, a stable sort on
a counter in insertion order). -/
def extract_keywords (text : String) (max_keywords : ℕ := 10) : List String :=
  let words := findWords text.toLower
  let keywords := words.filter (fun w => decide (w ∉ stop_words ∧ 2 ≤ w.length))
  let distinct := dedupFirst [] keywords
  let ranked := distinct.insertionSort
    (fun a b => keywords.count b ≤ keywords.count a)
  ranked.take max_keywords

/-- Add `id` to the id set of `keyword` in the index
(`self.semantic_index[keyword].add(entry.id)` on a `defaultdict(set)`). -/
def indexInsert (idx : List (String × List String)) (keyword id : String) :
    List (String × List String) :=
  match idx with
  | [] => [(keyword, [id])]
  | (k, ids) :: rest =>
    if k = keyword then
      (k, if id ∈ ids then ids else ids ++ [id]) :: rest
    else (k, ids) :: indexInsert rest keyword id

/-- The method `_update_semantic_index(entry)`: extract keywords from the
entry content (default cap 10) and add the entry id under each. -/
def update_semantic_index (idx : List (String × List String))
    (entry : MemoryEntry) : List (String × List String) :=
  (extract_keywords entry.content).foldl
    (fun acc kw => indexInsert acc kw entry.id) idx

end ConversationMemory

/-- The comparison key of the eviction sort
(`key=lambda x: x.importance`, ascending). -/
def impLE (a b : MemoryEntry) : Prop :=
  a.importance ≤ b.importance

instance : DecidableRel impLE := fun a b => inferInstanceAs (Decidable (a.importance ≤ b.importance))

instance : IsTotal MemoryEntry impLE := ⟨fun a b => le_total a.importance b.importance⟩

instance : IsTrans MemoryEntry impLE := ⟨fun _ _ _ h1 h2 => le_trans h1 h2⟩

/-- The comparison key of the score sorts (`key=lambda x: x[1]`,
descending). -/
def scoreGE {α : Type} (a b : α × ℚ) : Prop :=
  b.2 ≤ a.2

instance {α : Type} : DecidableRel (scoreGE (α := α)) :=
  fun a b => inferInstanceAs (Decidable (b.2 ≤ a.2))

instance {α : Type} : IsTotal (α × ℚ) scoreGE := ⟨fun a b => le_total b.2 a.2⟩

instance {α : Type} : IsTrans (α × ℚ) scoreGE := ⟨fun _ _ _ h1 h2 => le_trans h2 h1⟩

namespace ConversationMemory

open KeywordExtraction

/-- Ascending stable sort by importance:
`self.entries.sort(key=lambda x: x.importance)`. -/
def sortByImportance (l : List MemoryEntry) : List MemoryEntry :=
  l.insertionSort impLE

/-- The method `add(content, mem_type, metadata, importance)`: build the
entry (id = first 12 hex chars of the md5 of timestamp+content+count),
index it, append it, and when the count exceeds `max_entries` sort
ascending by importance and keep the slice `entries[-max_entries:]`.
Returns the updated memory and the created entry. -/
def addE (env : MemEnv) (cm : ConversationMemory) (content mem_type : String)
    (metadata : List (String × Json)) (importance : ℚ) :
    ConversationMemory × MemoryEntry :=
  let timestamp := env.now
  let unique_str := toString timestamp ++ content ++ toString cm.entries.length
  let mem_id := pyStrTake 12 (env.hash unique_str)
  let entry : MemoryEntry :=
    { id := mem_id, timestamp := timestamp, type := mem_type,
      content := content, metadata := metadata, importance := importance }
  let idx := update_semantic_index cm.semantic_index entry
  let es := cm.entries ++ [entry]
  let es' := if cm.max_entries < es.length
    then pySliceLast cm.max_entries (sortByImportance es) else es
  ({ cm with entries := es', semantic_index := idx }, entry)

/-- The method `add`, returning the new id as in the source. -/
def add (env : MemEnv) (cm : ConversationMemory) (content mem_type : String)
    (metadata : List (String × Json) := []) (importance : ℚ := 0.5) :
    ConversationMemory × String :=
  let (cm', e) := addE env cm content mem_type metadata importance
  (cm', e.id)

/-- Convenience method `add_user_input` (importance 0.8). -/
def add_user_input (env : MemEnv) (cm : ConversationMemory)
    (user_input : String) : ConversationMemory × String :=
  add env cm user_input "user" [] 0.8

/-- Convenience method `add_assistant_response` (importance 0.7). -/
def add_assistant_response (env : MemEnv) (cm : ConversationMemory)
    (response : String) : ConversationMemory × String :=
  add env cm response "assistant" [] 0.7

/-- Convenience method `add_tool_execution` (importance 0.6, composite
content, metadata with a 100-character output preview). -/
def add_tool_execution (env : MemEnv) (cm : ConversationMemory)
    (tool_name input_data output : String) : ConversationMemory × String :=
  let content := "工具: " ++ tool_name ++ "\n输入: " ++ input_data ++
    "\n输出: " ++ output
  let preview := if 100 < output.length then pyStrTake 100 output else output
  let metadata := [("tool", Json.str tool_name), ("input", Json.str input_data),
    ("output_preview", Json.str preview)]
  add env cm content "tool" metadata 0.6

/-- Convenience method `add_summary` (importance 0.9). -/
def add_summary (env : MemEnv) (cm : ConversationMemory) (summary : String) :
    ConversationMemory × String :=
  add env cm summary "summary" [] 0.9

/-- The method `get_recent(n)`: the last `n` entries (the whole list when
`n ≥ len(entries)`; the source tests `n < len(self.entries)`). -/
def get_recent (cm : ConversationMemory) (n : ℕ := 10) : List MemoryEntry :=
  if n < cm.entries.length then cm.entries.drop (cm.entries.length - n)
  else cm.entries

/-- The method `_get_entry_by_id(mem_id)`: first entry with the given id,
or `None`. -/
def get_entry_by_id (cm : ConversationMemory) (mem_id : String) :
    Option MemoryEntry :=
  cm.entries.find? (fun e => e.id == mem_id)

/-- The method `clear()`: empties the entry list only (the semantic index
is left as-is). -/
def clear (cm : ConversationMemory) : ConversationMemory :=
  { cm with entries := [] }

/-- Descending stable sort of scored results by score
(`sorted(..., key=lambda x: x[1], reverse=True)`; CPython's stable sort
with `reverse=True` keeps the original relative order of ties). -/
def sortByScoreDesc {α : Type} (l : List (α × ℚ)) : List (α × ℚ) :=
  l.insertionSort scoreGE

/-- Insertion-ordered union step for `matched_ids.update(ids)`: append the
ids not already present. -/
def unionIds (acc ids : List String) : List String :=
  ids.foldl (fun a i => if i ∈ a then a else a ++ [i]) acc

/-- The `keyword_scores` dictionary built in `semantic_search`: each query
keyword present in `semantic_index` maps to its weight `len(keyword) + 1`
(keywords absent from the index get no entry — `keyword_scores.get(kw, 0)`
later yields 0 for them). -/
def keyword_scores_of (cm : ConversationMemory)
    (query_keywords : List String) : List (String × ℕ) :=
  query_keywords.filterMap fun kw =>
    if (cm.semantic_index.lookup kw).isSome then some (kw, kw.length + 1)
    else none

/-- The `matched_ids` set of `semantic_search`: union (insertion-ordered)
of the id sets the semantic index maps the query keywords to. -/
def matched_ids_of (cm : ConversationMemory)
    (query_keywords : List String) : List String :=
  query_keywords.foldl
    (fun acc kw => match cm.semantic_index.lookup kw with
      | some ids => unionIds acc ids
      | none => acc) []

/-- The per-candidate `final_score` of `semantic_search`: the sum over the
entry's own (up to 20) keywords of the recorded weight of those that are
query keywords (`keyword_scores.get(kw, 0)`), times the entry's
importance. -/
def entry_match_score (cm : ConversationMemory)
    (query_keywords : List String) (entry : MemoryEntry) : ℚ :=
  let entry_keywords := extract_keywords entry.content 20
  let match_score : ℕ := (entry_keywords.map fun kw =>
    if kw ∈ query_keywords then
      ((keyword_scores_of cm query_keywords).lookup kw).getD 0 else 0).sum
  (match_score : ℚ) * entry.importance

/-- The method `semantic_search(query, limit)` as written in the source:
extract up to 5 query keywords; record a weight `len(kw)+1` for each query
keyword present in `semantic_index` and take the union of their id sets;
for each matched id resolved to an entry, score it by summing the recorded
weights of its own (up to 20) keywords that are query keywords, times the
entry importance; sort descending by score, keep positive scores, truncate
to `limit`. The pair's first component is the `Optional`-typed result of
`_get_entry_by_id`, exactly as the list is built in the source. -/
def semantic_search (cm : ConversationMemory) (query : String)
    (limit : ℕ := 10) : List (Option MemoryEntry × ℚ) :=
  let query_keywords := extract_keywords query 5
  if query_keywords = [] then []
  else
    let entry_scores : List (String × ℚ) :=
      (matched_ids_of cm query_keywords).filterMap fun mem_id =>
        match cm.entries.find? (fun e => e.id == mem_id) with
        | some entry =>
          some (mem_id, entry_match_score cm query_keywords entry)
        | none => none
    let sorted_results :=
      sortByScoreDesc (entry_scores.map fun p => (get_entry_by_id cm p.1, p.2))
    let filtered_results := sorted_results.filter (fun p => decide (0 < p.2))
    filtered_results.take limit

/-- Python `str(n)` of the entry count, and the running stats of
`get_stats()` (used by `save_session`): total entries, session duration,
per-type counts, average importance. -/
def get_stats (cm : ConversationMemory) (now : ℚ) : Json :=
  let type_counts := (dedupFirst [] (cm.entries.map (·.type))).map fun t =>
    (t, Json.num ((cm.entries.filter (fun e => e.type == t)).length : ℚ))
  Json.obj
    [("total_entries", Json.num (cm.entries.length : ℚ)),
     ("session_duration", Json.num (now - cm.session_start)),
     ("type_counts", Json.obj type_counts),
     ("avg_importance",
       Json.num (if cm.entries.isEmpty then 0
        else (cm.entries.map (·.importance)).sum / (cm.entries.length : ℚ)))]

end ConversationMemory

/-- One call to an `add` method of `ConversationMemory`, covering the raw
method and its convenience variants. -/
inductive AddCall where
  | raw (content mem_type : String) (metadata : List (String × Json))
      (importance : ℚ) : AddCall
  | user (s : String) : AddCall
  | assistant (s : String) : AddCall
  | tool (tool_name input_data output : String) : AddCall
  | summary (s : String) : AddCall

namespace ConversationMemory

/-- Dispatch one `add` call, returning the new state and the created
entry. -/
def addCallE (env : MemEnv) (cm : ConversationMemory) :
    AddCall → ConversationMemory × MemoryEntry
  | .raw c t md imp => addE env cm c t md imp
  | .user s => addE env cm s "user" [] 0.8
  | .assistant s => addE env cm s "assistant" [] 0.7
  | .tool n i o =>
    let content := "工具: " ++ n ++ "\n输入: " ++ i ++ "\n输出: " ++ o
    let preview := if 100 < o.length then pyStrTake 100 o else o
    addE env cm content "tool"
      [("tool", Json.str n), ("input", Json.str i),
       ("output_preview", Json.str preview)] 0.6
  | .summary s => addE env cm s "summary" [] 0.9

/-- Run a sequence of `add` calls (each with its own call-time
environment), returning the final state and the list of entries created,
in creation order. -/
def runAdds (cm : ConversationMemory) :
    List (MemEnv × AddCall) → ConversationMemory × List MemoryEntry
  | [] => (cm, [])
  | (env, c) :: rest =>
    let (cm', e) := addCallE env cm c
    let (cmF, created) := runAdds cm' rest
    (cmF, e :: created)

end ConversationMemory

/-- The dataclass serialization `MemoryEntry.to_dict()` (`asdict`), as the
JSON object written by `json.dump`. -/
def MemoryEntry.to_dict (e : MemoryEntry) : Json :=
  Json.obj
    [("id", Json.str e.id),
     ("timestamp", Json.num e.timestamp),
     ("type", Json.str e.type),
     ("content", Json.str e.content),
     ("metadata", Json.obj e.metadata),
     ("importance", Json.num e.importance)]

/-- The deserialization `MemoryEntry.from_dict(data)` (`cls(**data)`) of a
loaded JSON value: succeeds when every dataclass field is present with a
value of the right shape, as keyword construction does; any other shape
raises in Python, modelled by `none`. -/
def MemoryEntry.from_dict (j : Json) : Option MemoryEntry :=
  match j with
  | Json.obj fields =>
    match fields.lookup "id", fields.lookup "timestamp", fields.lookup "type",
      fields.lookup "content", fields.lookup "metadata",
      fields.lookup "importance" with
    | some (Json.str id), some (Json.num ts), some (Json.str ty),
      some (Json.str c), some (Json.obj md), some (Json.num imp) =>
      some { id := id, timestamp := ts, type := ty, content := c,
             metadata := md, importance := imp }
    | _, _, _, _, _, _ => none
  | _ => none

/-- Deserialize a list of entry records
(`[MemoryEntry.from_dict(item) for item in ...]`; a failing item raises,
failing the whole load). -/
def entriesFromJson : List Json → Option (List MemoryEntry)
  | [] => some []
  | j :: js =>
    match MemoryEntry.from_dict j, entriesFromJson js with
    | some e, some es => some (e :: es)
    | _, _ => none

/-- Persistent (long-term) memory state, from class `PersistentMemory`:
the in-memory long-term entries (mirrored to `long_term.json` on every
store) and the per-session files of the `sessions` directory, modelled as
an association list from session id to file content, newest first. -/
structure PersistentMemory where
  long_term_entries : List MemoryEntry
  session_files : List (String × Json)

namespace PersistentMemory

/-- The method `store_important(content, importance)`: below the 0.8
threshold return the empty id and store nothing; otherwise build a
`type='persistent'` entry (id = first 12 hex chars of the md5 of
timestamp+content), append it to `long_term_entries` (and rewrite the
backing file), and return its id. -/
def store_important (env : MemEnv) (pm : PersistentMemory) (content : String)
    (importance : ℚ := 0.8) : String × PersistentMemory :=
  if importance < 0.8 then ("", pm)
  else
    let timestamp := env.now
    let unique_str := toString timestamp ++ content
    let mem_id := pyStrTake 12 (env.hash unique_str)
    let entry : MemoryEntry :=
      { id := mem_id, timestamp := timestamp, type := "persistent",
        content := content, metadata := [], importance := importance }
    (mem_id, { pm with long_term_entries := pm.long_term_entries ++ [entry] })

/-- The method `search_long_term(query, limit)`: case-insensitive substring
matches over the long-term entries, sorted descending by importance
(stable), truncated to `limit`. -/
def search_long_term (pm : PersistentMemory) (query : String)
    (limit : ℕ := 5) : List MemoryEntry :=
  let q := query.toLower
  let ms := pm.long_term_entries.filter
    (fun e => (e.content.toLower.splitOn q).length != 1)
  let sorted := ms.insertionSort (fun a b => b.importance ≤ a.importance)
  sorted.take limit

/-- The method `get_related_memories(keyword)`. -/
def get_related_memories (pm : PersistentMemory) (keyword : String) :
    List MemoryEntry :=
  search_long_term pm keyword

/-- The method `save_session(session_id, conversation_memory)`: write the
session file `{session_id}.json` with the session id, the current time,
the serialized entries, and the stats snapshot (full overwrite). -/
def save_session (env : MemEnv) (pm : PersistentMemory) (session_id : String)
    (cm : ConversationMemory) : PersistentMemory :=
  let data := Json.obj
    [("session_id", Json.str session_id),
     ("timestamp", Json.num env.now),
     ("entries", Json.arr (cm.entries.map MemoryEntry.to_dict)),
     ("stats", cm.get_stats env.now)]
  { pm with session_files := (session_id, data) :: pm.session_files }

/-- The method `load_session(session_id)`: `None` when no session file
exists; otherwise parse the file and rebuild the entry list from
`data.get('entries', [])` (any parse failure raises and is caught,
returning `None`). -/
def load_session (pm : PersistentMemory) (session_id : String) :
    Option (List MemoryEntry) :=
  match pm.session_files.lookup session_id with
  | none => none
  | some (Json.obj fields) =>
    match fields.lookup "entries" with
    | none => some []
    | some (Json.arr items) => entriesFromJson items
    | some _ => none
  | some _ => none

end PersistentMemory

/-- Memory manager state, from class `MemoryManager`: a session id, a
conversational memory and a persistent memory. -/
structure MemoryManager where
  session_id : String
  conversation_memory : ConversationMemory
  persistent_memory : PersistentMemory

namespace MemoryManager

/-- The method `add_user_input`: delegate to the conversational memory. -/
def add_user_input (env : MemEnv) (mgr : MemoryManager) (user_input : String) :
    MemoryManager × String :=
  let (cm', mem_id) :=
    mgr.conversation_memory.add_user_input env user_input
  ({ mgr with conversation_memory := cm' }, mem_id)

/-- The method `add_assistant_response`: delegate to the conversational
memory, and when the response is longer than 50 characters additionally
call `store_important` with a templated wrapper of the first 200 response
characters at importance 0.7. -/
def add_assistant_response (env : MemEnv) (mgr : MemoryManager)
    (response : String) : MemoryManager × String :=
  let (cm', mem_id) :=
    mgr.conversation_memory.add_assistant_response env response
  let pm' :=
    if 50 < response.length then
      (mgr.persistent_memory.store_important env
        ("用户提问后，助手回复: " ++ pyStrTake 200 response ++ "...") 0.7).2
    else mgr.persistent_memory
  ({ mgr with conversation_memory := cm', persistent_memory := pm' }, mem_id)

/-- The method `add_summary`: delegate to the conversational memory and
always promote the summary to persistent memory at importance 0.9. -/
def add_summary (env : MemEnv) (mgr : MemoryManager) (summary : String) :
    MemoryManager × String :=
  let (cm', mem_id) := mgr.conversation_memory.add_summary env summary
  let pm' := (mgr.persistent_memory.store_important env summary 0.9).2
  ({ mgr with conversation_memory := cm', persistent_memory := pm' }, mem_id)

/-- The method `save_session()`: delegate to the persistent memory with the
current session id and conversational memory. -/
def save_session (env : MemEnv) (mgr : MemoryManager) : MemoryManager :=
  { mgr with persistent_memory :=
      (PersistentMemory.save_session env mgr.persistent_memory mgr.session_id
        mgr.conversation_memory) }

end MemoryManager

mutual

/-- Boolean (deep) equality of JSON values, modelling Python `==` on
JSON-serializable values (used by the metadata filter). -/
def jsonBEq : Json → Json → Bool
  | Json.null, Json.null => true
  | Json.bool a, Json.bool b => a == b
  | Json.num a, Json.num b => a == b
  | Json.str a, Json.str b => a == b
  | Json.arr a, Json.arr b => jsonListBEq a b
  | Json.obj a, Json.obj b => jsonObjBEq a b
  | _, _ => false

/-- Boolean equality of JSON arrays. -/
def jsonListBEq : List Json → List Json → Bool
  | [], [] => true
  | x :: xs, y :: ys => jsonBEq x y && jsonListBEq xs ys
  | _, _ => false

/-- Boolean equality of JSON objects (ordered field lists). -/
def jsonObjBEq : List (String × Json) → List (String × Json) → Bool
  | [], [] => true
  | (k1, v1) :: xs, (k2, v2) :: ys =>
    k1 == k2 && jsonBEq v1 v2 && jsonObjBEq xs ys
  | _, _ => false

end

/-- A document as consumed by the vector store (`Document` objects of the
data-loader module): text content plus metadata. -/
structure VDocument where
  content : String
  metadata : List (String × Json)

/-- Search result, from the dataclass `SearchResult` of
`src/src/core/vector_store.py`: the document, the similarity score, the
metadata, and the source value (`metadata.get('source', 'unknown')`, an
arbitrary JSON value in Python). -/
structure SearchResult where
  document : VDocument
  score : ℚ
  metadata : List (String × Json)
  source : Json

/-- Call-site environment for the vector-store module: the configured
embedding function (`EmbeddingFunction.embed`) and the square root used by
`x ** 0.5` in the cosine-similarity norm (a float operation; its exact
value is irrelevant to the properties proved here, so it enters the model
as a parameter). -/
structure VecEnv where
  embed : String → List ℚ
  sqrt : ℚ → ℚ

/-- In-memory vector store state, from class `InMemoryVectorStore`: the
configured dimension and the four parallel lists. -/
structure InMemoryVectorStore where
  dimension : ℕ
  documents : List VDocument
  embeddings : List (List ℚ)
  metadatas : List (List (String × Json))
  ids : List ℕ

namespace InMemoryVectorStore

/-- A fresh store (`InMemoryVectorStore(dimension=d)`). -/
def init (d : ℕ := 26) : InMemoryVectorStore :=
  { dimension := d, documents := [], embeddings := [], metadatas := [],
    ids := [] }

/-- The method `add(documents, embeddings)`: embed the documents when no
embeddings are supplied, raise (`ValueError`, modelled by `Except.error`)
when any embedding's length differs from `dimension` — before anything is
appended — and otherwise append document/embedding pairs (`zip`) to all
four parallel lists, ids assigned as `start_id + i` with
`start_id = len(self.documents)`. The embedding resolution
(`if embeddings is None: ... embed_batch(texts)`) is split out for reuse
in proofs. -/
def resolveEmbeddings (env : VecEnv) (documents : List VDocument) :
    Option (List (List ℚ)) → List (List ℚ)
  | none => documents.map (fun doc => env.embed doc.content)
  | some es => es

/-- The method `add(documents, embeddings)` itself (see above). -/
def add (env : VecEnv) (vs : InMemoryVectorStore) (documents : List VDocument)
    (embeddings : Option (List (List ℚ)) := none) :
    Except String InMemoryVectorStore :=
  let embs : List (List ℚ) := resolveEmbeddings env documents embeddings
  if embs.any (fun e => e.length != vs.dimension) then
    Except.error "向量维度不匹配"
  else
    let start_id := vs.documents.length
    let pairs : List (VDocument × List ℚ) := documents.zip embs
    Except.ok
      { vs with
        documents := vs.documents ++ pairs.map (·.1),
        embeddings := vs.embeddings ++ pairs.map (·.2),
        metadatas := vs.metadatas ++ pairs.map (fun p => p.1.metadata),
        ids := vs.ids ++ (List.range pairs.length).map (start_id + ·) }

/-- The helper `_match_filter(metadata, filter)`: every filter key must be
present in the metadata with an equal value. -/
def match_filter (metadata : List (String × Json))
    (filter : List (String × Json)) : Bool :=
  filter.all fun kv =>
    match metadata.lookup kv.1 with
    | some v => jsonBEq v kv.2
    | none => false

/-- The helper `_cosine_similarity(a, b)`: `dot(a,b) / (|a|·|b|)`, with 0
when either norm is 0. -/
def cosine_similarity (env : VecEnv) (a b : List ℚ) : ℚ :=
  let dot_product := ((a.zip b).map fun p => p.1 * p.2).sum
  let norm_a := env.sqrt ((a.map fun x => x * x).sum)
  let norm_b := env.sqrt ((b.map fun x => x * x).sum)
  if norm_a = 0 ∨ norm_b = 0 then 0 else dot_product / (norm_a * norm_b)

/-- The method `similarity_search(query, k, filter)`: empty when the store
is empty; otherwise score every stored vector surviving the metadata
filter with cosine similarity against the embedded query, sort descending
(stable), and return the top `k` as `SearchResult`s. Indexing into the
parallel lists (`self.metadatas[i]`, `self.documents[i]`) is modelled
totally with a default, unreachable while the lists have equal length. -/
def similarity_search (env : VecEnv) (vs : InMemoryVectorStore)
    (query : String) (k : ℕ := 5) (filter : Option (List (String × Json)) := none) :
    List SearchResult :=
  if vs.documents.isEmpty then []
  else
    let query_embedding := env.embed query
    let scores : List (ℕ × ℚ) :=
      (List.range vs.embeddings.length).filterMap fun i =>
        let md := vs.metadatas.getD i []
        match filter with
        | some f => if match_filter md f then
            some (i, cosine_similarity env query_embedding
              (vs.embeddings.getD i [])) else none
        | none =>
          some (i, cosine_similarity env query_embedding
            (vs.embeddings.getD i []))
    let sorted := scores.insertionSort (fun a b => b.2 ≤ a.2)
    (sorted.take k).map fun p =>
      let md := vs.metadatas.getD p.1 []
      { document := vs.documents.getD p.1 ⟨"", []⟩,
        score := p.2,
        metadata := md,
        source := (md.lookup "source").getD (Json.str "unknown") }

/-- The method `delete(ids)`: keep the positions whose id is not in the
given set, compacting all four parallel lists
(`keep_indices = [i for i, doc_id in enumerate(self.ids) if doc_id not in id_set]`).
Indexing is modelled totally with defaults, unreachable at equal lengths. -/
def delete (vs : InMemoryVectorStore) (ids : List ℕ) : InMemoryVectorStore :=
  let keep_indices := (List.range vs.ids.length).filter
    (fun i => vs.ids.getD i 0 ∉ ids)
  { vs with
    documents := keep_indices.map (fun i => vs.documents.getD i ⟨"", []⟩),
    embeddings := keep_indices.map (fun i => vs.embeddings.getD i []),
    metadatas := keep_indices.map (fun i => vs.metadatas.getD i []),
    ids := keep_indices.map (fun i => vs.ids.getD i 0) }

end InMemoryVectorStore

/-- One mutating vector-store operation, for stating properties over
arbitrary call sequences. A raising `add` (dimension mismatch) propagates
to the caller and leaves the store unchanged. -/
inductive VecOp where
  | add (documents : List VDocument) (embeddings : Option (List (List ℚ))) :
      VecOp
  | del (ids : List ℕ) : VecOp

/-- Apply one operation to the store; a rejected `add` leaves the store
as it was (the raised `ValueError` mutates nothing). -/
def VecOp.apply (env : VecEnv) (vs : InMemoryVectorStore) :
    VecOp → InMemoryVectorStore
  | .add docs embs =>
    match vs.add env docs embs with
    | Except.ok vs' => vs'
    | Except.error _ => vs
  | .del ids => vs.delete ids

mutual

/-- Rendering of a JSON value into text, standing in for Python `str()`
inside f-strings (only the string case, the one exercised by the source's
`source` labels, is observable in the claims below; compound values are
rendered structurally). -/
def jsonDisplay : Json → String
  | Json.null => "None"
  | Json.bool b => if b then "True" else "False"
  | Json.num q => toString q
  | Json.str s => s
  | Json.arr xs => "[" ++ jsonDisplayList xs ++ "]"
  | Json.obj fs => "\x7b" ++ jsonDisplayObj fs ++ "\x7d"

/-- Rendering of a JSON array's elements. -/
def jsonDisplayList : List Json → String
  | [] => ""
  | [x] => jsonDisplay x
  | x :: xs => jsonDisplay x ++ ", " ++ jsonDisplayList xs

/-- Rendering of a JSON object's fields. -/
def jsonDisplayObj : List (String × Json) → String
  | [] => ""
  | [(k, v)] => k ++ ": " ++ jsonDisplay v
  | (k, v) :: fs => k ++ ": " ++ jsonDisplay v ++ ", " ++ jsonDisplayObj fs

end

/-- The result dictionary of `RAGSystem.query`. -/
structure RAGResult where
  question : String
  answer : String
  context : String
  relevant_documents : List SearchResult
  confidence : ℚ

/-- RAG system configuration, from class `RAGSystem`: a vector store and
an optional LLM collaborator. The LLM is an external capability: it takes
the prompt and either returns answer text (the `content` extracted from
whatever shape it answers with) or fails (`invoke` raising). -/
structure RAGSystem where
  vector_store : InMemoryVectorStore
  llm : Option (String → Except String String)

namespace RAGSystem

/-- The hit list's maximum score (`max(doc.score for doc in relevant_docs)`,
only evaluated on a non-empty list). -/
def maxScore (docs : List SearchResult) : ℚ :=
  match docs with
  | [] => 0
  | d :: ds => ds.foldl (fun m x => max m x.score) d.score

/-- The hit list's mean score
(`sum(doc.score for doc in relevant_docs) / len(relevant_docs)`). -/
def avgScore (docs : List SearchResult) : ℚ :=
  (docs.map (·.score)).sum / (docs.length : ℚ)

/-- The method `_calculate_confidence(relevant_docs)`: 0.0 on an empty
list, otherwise the average of the maximum and mean scores clamped to
[0, 1] (`min(max(confidence, 0.0), 1.0)`). -/
def calculate_confidence (docs : List SearchResult) : ℚ :=
  if docs.isEmpty then 0
  else min (max ((maxScore docs + avgScore docs) / 2) 0) 1

/-- The numbered context block built by `query` step 2
(`"文档 {i+1} [{doc_source}]:\n{doc_content}"`, joined by blank lines). -/
def buildContext (docs : List SearchResult) : String :=
  String.intercalate "\n\n"
    ((List.range docs.length).map fun i =>
      let doc := docs.getD i ⟨⟨"", []⟩, 0, [], Json.null⟩
      "文档 " ++ toString (i + 1) ++ " [" ++ jsonDisplay doc.source ++ "]:\n"
        ++ doc.document.content)

/-- The method `_generate_answer(question, context, relevant_docs)`: with
an LLM, build the strict instruction prompt and return the stripped answer
text, falling back to a templated excerpt-plus-error message when the call
fails; without an LLM, return the templated demo excerpt. -/
def generate_answer (rag : RAGSystem) (question context : String)
    (relevant_docs : List SearchResult) : String :=
  match rag.llm with
  | some invokeLLM =>
    let prompt := "你是一个专业的文档总结助手。请基于提供的上下文信息回答问题。\n\n"
      ++ "重要说明：\n1. 只使用上下文信息中的内容回答问题\n"
      ++ "2. 如果上下文信息中没有相关内容，直接说明\"上下文信息中没有相关内容\"\n"
      ++ "3. 不要添加上下文信息中没有的内容\n\n上下文信息：\n" ++ context
      ++ "\n\n问题：" ++ question ++ "\n\n回答："
    match invokeLLM prompt with
    | Except.ok answer => answer.trim
    | Except.error e =>
      "\n基于以下 " ++ toString relevant_docs.length ++ " 个相关文档片段的回答：\n\n"
        ++ pyStrTake 500 context ++ "...\n\n注意：LLM 调用失败，使用演示版本。\n错误信息："
        ++ e ++ "\n"
  | none =>
    "\n基于以下 " ++ toString relevant_docs.length ++ " 个相关文档片段的回答：\n\n"
      ++ pyStrTake 500 context ++ "...\n\n注意：这是演示版本，实际应用中应调用 LLM 生成答案。\n"

/-- The method `query(question, k, filter, rerank)`: retrieve the top `k`
documents; on an empty retrieval return the fixed no-information result
with confidence 0.0; otherwise assemble the context block, generate the
answer, and compute the clamped confidence. -/
def query (env : VecEnv) (rag : RAGSystem) (question : String) (k : ℕ := 5)
    (filter : Option (List (String × Json)) := none) : RAGResult :=
  let relevant_docs := rag.vector_store.similarity_search env question k filter
  if relevant_docs.isEmpty then
    { question := question, answer := "抱歉，没有找到相关信息", context := "",
      relevant_documents := [], confidence := 0.0 }
  else
    let context := buildContext relevant_docs
    let answer := generate_answer rag question context relevant_docs
    let confidence := calculate_confidence relevant_docs
    { question := question, answer := answer, context := context,
      relevant_documents := relevant_docs, confidence := confidence }

end RAGSystem

/-! Shared concrete inputs for witnesses and counterexamples. -/

/-- A concrete call environment: time 0, and a hash function returning a
fixed 32-character hex digest (every md5 hexdigest has 32 characters). -/
def envW : MemEnv :=
  { now := 0, hash := fun _ => "0123456789abcdef0123456789abcdef" }

/-- An empty persistent memory (fresh `PersistentMemory` with no stored
files). -/
def pmW : PersistentMemory :=
  { long_term_entries := [], session_files := [] }

/-- The claim C2, first half: when `importance ≥ 0.8`,
`PersistentMemory.store_important` appends exactly one `type="persistent"`
entry to `long_term_entries` and returns its non-empty id; second half:
when `importance < 0.8` it returns the empty string and leaves the store
unchanged. The md5 digest enters as the hypothesis that the environment's
hash yields 32-character strings. -/
theorem store_important_threshold (env : MemEnv) (pm : PersistentMemory)
    (content : String) (importance : ℚ)
    (hmd5 : ∀ s, (env.hash s).data.length = 32) :
    (0.8 ≤ importance →
      ∃ e : MemoryEntry,
        (PersistentMemory.store_important env pm content importance).2.long_term_entries
          = pm.long_term_entries ++ [e] ∧
        e.type = "persistent" ∧
        (PersistentMemory.store_important env pm content importance).1 = e.id ∧
        e.id ≠ "") ∧
    (importance < 0.8 →
      (PersistentMemory.store_important env pm content importance).1 = "" ∧
      (PersistentMemory.store_important env pm content importance).2 = pm) := by
  constructor
  · intro h
    have hlt : ¬ importance < 0.8 := not_lt.mpr h
    simp only [PersistentMemory.store_important, if_neg hlt]
    refine ⟨_, rfl, rfl, rfl, ?_⟩
    intro hempty
    have hdata := congrArg String.data hempty
    simp only [pyStrTake] at hdata
    have hlen := congrArg List.length hdata
    rw [List.length_take, hmd5] at hlen
    simp at hlen
  · intro h
    constructor <;> simp only [PersistentMemory.store_important, if_pos h]

/-- Witness for C2: at importance 0.9 an entry is appended with a
non-empty id, and at importance 0.5 the store is unchanged with an empty
id, for a concrete environment whose hash yields a fixed 32-character
digest. -/
theorem store_important_threshold_witness :
    ((∀ s, (envW.hash s).data.length = 32) ∧ (0.8:ℚ) ≤ 0.9 ∧ (0.5:ℚ) < 0.8) ∧
    (∃ e : MemoryEntry,
      (PersistentMemory.store_important envW pmW "important fact" 0.9).2.long_term_entries
        = pmW.long_term_entries ++ [e] ∧
      e.type = "persistent" ∧
      (PersistentMemory.store_important envW pmW "important fact" 0.9).1 = e.id ∧
      e.id ≠ "") ∧
    ((PersistentMemory.store_important envW pmW "short" 0.5).1 = "" ∧
      (PersistentMemory.store_important envW pmW "short" 0.5).2 = pmW) := by
  refine ⟨⟨fun s => rfl, by norm_num, by norm_num⟩, ?_, ?_⟩
  · exact (store_important_threshold envW pmW "important fact" 0.9
      (fun s => rfl)).1 (by norm_num)
  · exact (store_important_threshold envW pmW "short" 0.5
      (fun s => rfl)).2 (by norm_num)

/-- The claim C1 is refuted by the code: `MemoryManager.add_assistant_response`
on a 60-character response calls `store_important` with importance 0.7,
which is below the 0.8 threshold of `store_important`, so no persistent
entry is created: the persistent store is unchanged for every starting
state. -/
theorem add_assistant_response_never_promotes (env : MemEnv)
    (mgr : MemoryManager) :
    (MemoryManager.add_assistant_response env mgr
      (String.mk (List.replicate 60 'A'))).1.persistent_memory
      = mgr.persistent_memory := by
  have hlen : 50 < (String.mk (List.replicate 60 'A')).length := by decide
  simp only [MemoryManager.add_assistant_response, if_pos hlen,
    PersistentMemory.store_important]
  rw [if_pos (by norm_num : (0.7:ℚ) < 0.8)]

/-- Round-trip of one entry through `to_dict` / `from_dict`. -/
theorem from_dict_to_dict (e : MemoryEntry) :
    MemoryEntry.from_dict e.to_dict = some e := rfl

/-- Round-trip of an entry list through serialization. -/
theorem entriesFromJson_map_to_dict (l : List MemoryEntry) :
    entriesFromJson (l.map MemoryEntry.to_dict) = some l := by
  induction l with
  | nil => rfl
  | cons e es ih =>
    simp only [List.map_cons, entriesFromJson, from_dict_to_dict, ih]

/-- The claim C7: `save_session` followed by `load_session` on the same
session id returns exactly the conversational memory's entry list at save
time (all fields preserved). -/
theorem save_load_session_roundtrip (env : MemEnv) (pm : PersistentMemory)
    (session_id : String) (cm : ConversationMemory) :
    (PersistentMemory.save_session env pm session_id cm).load_session
      session_id = some cm.entries := by
  simp only [PersistentMemory.save_session, PersistentMemory.load_session,
    List.lookup, beq_self_eq_true, reduceCtorEq]
  simp [entriesFromJson_map_to_dict]

/-- The claim C9: the confidence of a `RAGSystem.query` result is always
in [0, 1]; when the retrieval step returns no documents, the result is the
fixed no-information answer with confidence exactly 0.0 and an empty
document list; when documents are retrieved, the confidence is the average
of the maximum and mean similarity scores clamped to [0, 1]. -/
theorem rag_query_confidence (env : VecEnv) (rag : RAGSystem)
    (question : String) (k : ℕ) (filter : Option (List (String × Json))) :
    (0 ≤ (RAGSystem.query env rag question k filter).confidence ∧
      (RAGSystem.query env rag question k filter).confidence ≤ 1) ∧
    (rag.vector_store.similarity_search env question k filter = [] →
      (RAGSystem.query env rag question k filter).confidence = 0 ∧
      (RAGSystem.query env rag question k filter).answer = "抱歉，没有找到相关信息" ∧
      (RAGSystem.query env rag question k filter).relevant_documents = []) ∧
    (rag.vector_store.similarity_search env question k filter ≠ [] →
      (RAGSystem.query env rag question k filter).confidence
        = min (max ((RAGSystem.maxScore
            (rag.vector_store.similarity_search env question k filter)
          + RAGSystem.avgScore
            (rag.vector_store.similarity_search env question k filter)) / 2)
          0) 1) := by
  by_cases hd : rag.vector_store.similarity_search env question k filter = []
  · have hde : (rag.vector_store.similarity_search env question k
        filter).isEmpty = true := by rw [hd]; rfl
    refine ⟨?_, fun _ => ?_, fun hne => absurd hd hne⟩ <;>
      simp_all only [RAGSystem.query, if_pos, List.isEmpty_iff] <;> norm_num
  · have hde : (rag.vector_store.similarity_search env question k
        filter).isEmpty = false := by
      simpa [List.isEmpty_iff] using hd
    have hconf : (RAGSystem.query env rag question k filter).confidence
        = min (max ((RAGSystem.maxScore
            (rag.vector_store.similarity_search env question k filter)
          + RAGSystem.avgScore
            (rag.vector_store.similarity_search env question k filter)) / 2)
          0) 1 := by
      simp only [RAGSystem.query, RAGSystem.calculate_confidence, hde,
        Bool.false_eq_true, if_false, if_neg]
    refine ⟨?_, fun he => absurd he hd, fun _ => hconf⟩
    rw [hconf]
    constructor
    · exact le_min (le_max_right _ _) zero_le_one
    · exact min_le_right _ _

/-- A concrete vector-store environment for witnesses: a constant
single-component embedding and the identity in place of the square root. -/
def venvW : VecEnv :=
  { embed := fun _ => [1], sqrt := fun q => q }

/-- A RAG system over an empty store, no LLM configured. -/
def ragEmptyW : RAGSystem :=
  { vector_store := InMemoryVectorStore.init 26, llm := none }

/-- A RAG system over a one-document store of dimension 1. -/
def ragOneW : RAGSystem :=
  { vector_store :=
      { dimension := 1, documents := [{ content := "hello", metadata := [] }],
        embeddings := [[1]], metadatas := [[]], ids := [0] },
    llm := none }

/-- Witness for C9: on the empty store the retrieval is empty and the
confidence is exactly 0 with the fixed answer; on a one-document store the
retrieval is non-empty and the confidence equals the clamped average. -/
theorem rag_query_confidence_witness :
    (ragEmptyW.vector_store.similarity_search venvW "anything" 5 none = [] ∧
      (RAGSystem.query venvW ragEmptyW "anything" 5 none).confidence = 0 ∧
      (RAGSystem.query venvW ragEmptyW "anything" 5 none).answer
        = "抱歉，没有找到相关信息") ∧
    (ragOneW.vector_store.similarity_search venvW "hi" 5 none ≠ [] ∧
      (RAGSystem.query venvW ragOneW "hi" 5 none).confidence
        = min (max ((RAGSystem.maxScore
            (ragOneW.vector_store.similarity_search venvW "hi" 5 none)
          + RAGSystem.avgScore
            (ragOneW.vector_store.similarity_search venvW "hi" 5 none)) / 2)
          0) 1) := by
  have h1 : ragEmptyW.vector_store.similarity_search venvW "anything" 5 none
      = [] := rfl
  have h2 : (ragOneW.vector_store.similarity_search venvW "hi" 5 none).length
      = 1 := by with_unfolding_all rfl
  have h2' : ragOneW.vector_store.similarity_search venvW "hi" 5 none ≠ [] := by
    intro h
    rw [h] at h2
    exact Nat.one_ne_zero h2.symm
  refine ⟨⟨h1, ?_, ?_⟩, ⟨h2', ?_⟩⟩
  · exact ((rag_query_confidence venvW ragEmptyW "anything" 5 none).2.1 h1).1
  · exact ((rag_query_confidence venvW ragEmptyW "anything" 5 none).2.1 h1).2.1
  · exact (rag_query_confidence venvW ragOneW "hi" 5 none).2.2 h2'

/-- The four parallel lists of the vector store have equal lengths, and
every stored vector has exactly `dimension` components. -/
def vsShapeOk (vs : InMemoryVectorStore) : Prop :=
  vs.documents.length = vs.ids.length ∧
  vs.embeddings.length = vs.ids.length ∧
  vs.metadatas.length = vs.ids.length ∧
  ∀ v ∈ vs.embeddings, v.length = vs.dimension

/-- A successful `add` preserves the shape invariant. -/
theorem add_preserves_shape (env : VecEnv) (vs : InMemoryVectorStore)
    (docs : List VDocument) (embs : Option (List (List ℚ)))
    (vs' : InMemoryVectorStore) (h : vs.add env docs embs = Except.ok vs')
    (hvs : vsShapeOk vs) : vsShapeOk vs' ∧ vs'.dimension = vs.dimension := by
  unfold InMemoryVectorStore.add at h
  dsimp only at h
  set el : List (List ℚ) := InMemoryVectorStore.resolveEmbeddings env docs embs
    with hel
  by_cases hany : el.any (fun e => e.length != vs.dimension) = true
  · rw [if_pos hany] at h
    exact absurd h (by simp)
  · rw [if_neg hany] at h
    have hall : ∀ e ∈ el, e.length = vs.dimension := by
      intro e he
      have := (List.any_eq_false.mp (Bool.not_eq_true _ ▸ hany)) e he
      simpa using this
    obtain ⟨h1, h2, h3, h4⟩ := hvs
    cases h
    refine ⟨⟨?_, ?_, ?_, ?_⟩, rfl⟩
    · simp [h1]
    · simp [h2]
    · simp [h3]
    · intro v hv
      rcases List.mem_append.mp hv with hv | hv
      · exact h4 v hv
      · obtain ⟨⟨d, e⟩, hde, rfl⟩ := List.mem_map.mp hv
        exact hall _ (List.of_mem_zip hde).2

/-- `delete` preserves the shape invariant. -/
theorem delete_preserves_shape (vs : InMemoryVectorStore) (ids : List ℕ)
    (hvs : vsShapeOk vs) :
    vsShapeOk (vs.delete ids) ∧ (vs.delete ids).dimension = vs.dimension := by
  obtain ⟨h1, h2, h3, h4⟩ := hvs
  refine ⟨⟨by simp [InMemoryVectorStore.delete],
    by simp [InMemoryVectorStore.delete],
    by simp [InMemoryVectorStore.delete], ?_⟩, rfl⟩
  intro v hv
  simp only [InMemoryVectorStore.delete, List.mem_map, List.mem_filter,
    List.mem_range] at hv
  obtain ⟨i, ⟨hir, _⟩, rfl⟩ := hv
  have hilt : i < vs.embeddings.length := by omega
  rw [List.getD_eq_getElem _ _ hilt]
  exact h4 _ (List.getElem_mem hilt)

/-- Applying any operation preserves the shape invariant. -/
theorem apply_preserves_shape (env : VecEnv) (vs : InMemoryVectorStore)
    (op : VecOp) (hvs : vsShapeOk vs) :
    vsShapeOk (VecOp.apply env vs op) ∧
    (VecOp.apply env vs op).dimension = vs.dimension := by
  cases op with
  | add docs embs =>
    simp only [VecOp.apply]
    cases hadd : vs.add env docs embs with
    | ok vs' => exact add_preserves_shape env vs docs embs vs' hadd hvs
    | error e => exact ⟨hvs, rfl⟩
  | del ids => exact delete_preserves_shape vs ids hvs

/-- The claim C6, first half: after any sequence of `add`/`delete`
operations from a fresh store, the four parallel lists have equal lengths
and every stored vector has exactly `dimension` components; second half:
an `add` supplied with an embedding whose length differs from `dimension`
raises (`ValueError`, modelled as `Except.error`) and the store the caller
holds is unchanged — the whole batch is rejected before anything is
appended. -/
theorem vector_store_shape_invariant (env : VecEnv) (d : ℕ)
    (ops : List VecOp) :
    vsShapeOk (ops.foldl (VecOp.apply env) (InMemoryVectorStore.init d)) ∧
    (∀ (vs : InMemoryVectorStore) (docs : List VDocument)
      (embs : List (List ℚ)),
      embs.any (fun e => e.length != vs.dimension) = true →
      vs.add env docs (some embs) = Except.error "向量维度不匹配" ∧
      VecOp.apply env vs (VecOp.add docs (some embs)) = vs) := by
  constructor
  · have hinit : vsShapeOk (InMemoryVectorStore.init d) := by
      refine ⟨rfl, rfl, rfl, ?_⟩
      intro v hv
      exact absurd hv (List.not_mem_nil v)
    -- fold preserves the invariant
    have : ∀ (l : List VecOp) (vs : InMemoryVectorStore), vsShapeOk vs →
        vsShapeOk (l.foldl (VecOp.apply env) vs) := by
      intro l
      induction l with
      | nil => intro vs h; exact h
      | cons op rest ih =>
        intro vs h
        exact ih _ (apply_preserves_shape env vs op h).1
    exact this ops _ hinit
  · intro vs docs embs hany
    have herr : vs.add env docs (some embs) = Except.error "向量维度不匹配" := by
      simp only [InMemoryVectorStore.add, InMemoryVectorStore.resolveEmbeddings]
      rw [if_pos hany]
    refine ⟨herr, ?_⟩
    simp only [VecOp.apply, herr]

/-- Witness for C6: a concrete rejected batch — a store of dimension 2
offered a 1-component embedding — errors and leaves the caller's store
unchanged. -/
theorem vector_store_shape_invariant_witness :
    ([[ (1:ℚ) ]].any (fun e =>
      e.length != (InMemoryVectorStore.init 2).dimension) = true) ∧
    (InMemoryVectorStore.init 2).add venvW [{ content := "a", metadata := [] }]
      (some [[1]]) = Except.error "向量维度不匹配" ∧
    VecOp.apply venvW (InMemoryVectorStore.init 2)
      (VecOp.add [{ content := "a", metadata := [] }] (some [[1]]))
      = InMemoryVectorStore.init 2 := by
  refine ⟨by decide, ?_⟩
  exact (vector_store_shape_invariant venvW 2 []).2 _ _ _ (by decide)

/-- Selecting a list's elements at its kept index positions is filtering:
the index-comprehension of `delete` equals a direct filter. -/
theorem select_filter (l : List α) (p : α → Bool) (d : α) :
    ((List.range l.length).filter (fun i => p (l.getD i d))).map
      (fun i => l.getD i d) = l.filter p := by
  induction l with
  | nil => rfl
  | cons x xs ih =>
    have hmap : ∀ (ns : List ℕ),
        ((ns.map (· + 1)).filter (fun i => p ((x :: xs).getD i d))).map
          (fun i => (x :: xs).getD i d)
        = (ns.filter (fun i => p (xs.getD i d))).map
            (fun i => xs.getD i d) := by
      intro ns
      induction ns with
      | nil => rfl
      | cons n ns ihn =>
        simp only [List.map_cons, List.filter_cons, List.getD_cons_succ]
        by_cases hn : p (xs.getD n d) = true
        · simp only [hn, if_true, List.map_cons, List.getD_cons_succ, ihn]
        · rw [if_neg hn, if_neg hn, ihn]
    have hrange : List.range (x :: xs).length
        = 0 :: (List.range xs.length).map (· + 1) := by
      rw [List.length_cons, List.range_succ_eq_map]
    rw [hrange]
    cases hp : p x with
    | true =>
      simp only [List.filter_cons, List.getD_cons_zero, hp, if_true,
        List.map_cons]
      rw [hmap, ih]
    | false =>
      simp only [List.filter_cons, List.getD_cons_zero, hp,
        Bool.false_eq_true, if_false]
      rw [hmap, ih]

/-- The ids produced by `delete` are the filter of the previous ids. -/
theorem delete_ids (vs : InMemoryVectorStore) (ids : List ℕ) :
    (vs.delete ids).ids = vs.ids.filter (fun i => decide (i ∉ ids)) := by
  simp only [InMemoryVectorStore.delete]
  exact select_filter vs.ids (fun i => decide (i ∉ ids)) 0

/-- A successful `add` appends ids `previous_count + index` over the
zipped batch. -/
theorem add_ok_ids (env : VecEnv) (vs : InMemoryVectorStore)
    (docs : List VDocument) (embs : Option (List (List ℚ)))
    (vs' : InMemoryVectorStore) (h : vs.add env docs embs = Except.ok vs') :
    vs'.ids = vs.ids ++
      (List.range (docs.zip
        (InMemoryVectorStore.resolveEmbeddings env docs embs)).length).map
        (vs.documents.length + ·) ∧
    vs'.documents.length = vs.documents.length +
      (docs.zip (InMemoryVectorStore.resolveEmbeddings env docs embs)).length := by
  unfold InMemoryVectorStore.add at h
  dsimp only at h
  by_cases hany : (InMemoryVectorStore.resolveEmbeddings env docs embs).any
      (fun e => e.length != vs.dimension) = true
  · rw [if_pos hany] at h
    exact absurd h (by simp)
  · rw [if_neg hany] at h
    cases h
    constructor
    · rfl
    · simp

/-- Applying an `add` operation preserves "ids are exactly
`range(len(documents))`". -/
theorem apply_add_preserves_range (env : VecEnv) (vs : InMemoryVectorStore)
    (docs : List VDocument) (embs : Option (List (List ℚ)))
    (hvs : vs.ids = List.range vs.documents.length) :
    (VecOp.apply env vs (VecOp.add docs embs)).ids =
      List.range (VecOp.apply env vs (VecOp.add docs embs)).documents.length := by
  simp only [VecOp.apply]
  cases hadd : vs.add env docs embs with
  | ok vs' =>
    obtain ⟨hids, hdoc⟩ := add_ok_ids env vs docs embs vs' hadd
    rw [hids, hdoc, hvs, List.range_add]
  | error e => exact hvs

/-- The claim C5, amended: starting from a fresh store, after any sequence
of `add` operations followed by any sequence of `delete` operations, the
ids are strictly increasing (hence unique); after the add phase they are
exactly `range(len(documents))`; and every successful `add` assigns ids as
`previous_count + index` over the batch. (An `add` performed after a
`delete` can re-assign an existing id, so the claim as stated over
arbitrarily interleaved sequences fails; see the counterexample.) -/
theorem vector_store_ids_monotone (env : VecEnv) (d : ℕ)
    (addOps : List (List VDocument × Option (List (List ℚ))))
    (delOps : List (List ℕ)) :
    (addOps.foldl (fun vs p => VecOp.apply env vs (VecOp.add p.1 p.2))
        (InMemoryVectorStore.init d)).ids =
      List.range (addOps.foldl
        (fun vs p => VecOp.apply env vs (VecOp.add p.1 p.2))
        (InMemoryVectorStore.init d)).documents.length ∧
    List.Pairwise (· < ·)
      (delOps.foldl (fun vs ids => VecOp.apply env vs (VecOp.del ids))
        (addOps.foldl (fun vs p => VecOp.apply env vs (VecOp.add p.1 p.2))
          (InMemoryVectorStore.init d))).ids ∧
    (delOps.foldl (fun vs ids => VecOp.apply env vs (VecOp.del ids))
        (addOps.foldl (fun vs p => VecOp.apply env vs (VecOp.add p.1 p.2))
          (InMemoryVectorStore.init d))).ids.Nodup ∧
    (∀ (vs : InMemoryVectorStore) (docs : List VDocument)
      (embs : Option (List (List ℚ))) (vs' : InMemoryVectorStore),
      vs.add env docs embs = Except.ok vs' →
      vs'.ids = vs.ids ++
        (List.range (docs.zip
          (InMemoryVectorStore.resolveEmbeddings env docs embs)).length).map
          (vs.documents.length + ·)) := by
  have hadds : ∀ (l : List (List VDocument × Option (List (List ℚ))))
      (vs : InMemoryVectorStore), vs.ids = List.range vs.documents.length →
      (l.foldl (fun vs p => VecOp.apply env vs (VecOp.add p.1 p.2)) vs).ids =
        List.range (l.foldl (fun vs p => VecOp.apply env vs (VecOp.add p.1 p.2))
          vs).documents.length := by
    intro l
    induction l with
    | nil => intro vs h; exact h
    | cons p rest ih =>
      intro vs h
      exact ih _ (apply_add_preserves_range env vs p.1 p.2 h)
  have hA := hadds addOps (InMemoryVectorStore.init d) rfl
  have hdels : ∀ (l : List (List ℕ)) (vs : InMemoryVectorStore),
      List.Pairwise (· < ·) vs.ids →
      List.Pairwise (· < ·)
        (l.foldl (fun vs ids => VecOp.apply env vs (VecOp.del ids)) vs).ids := by
    intro l
    induction l with
    | nil => intro vs h; exact h
    | cons ids rest ih =>
      intro vs h
      refine ih _ ?_
      show List.Pairwise (· < ·) (vs.delete ids).ids
      rw [delete_ids]
      exact h.filter _
  have hP : List.Pairwise (· < ·)
      (delOps.foldl (fun vs ids => VecOp.apply env vs (VecOp.del ids))
        (addOps.foldl (fun vs p => VecOp.apply env vs (VecOp.add p.1 p.2))
          (InMemoryVectorStore.init d))).ids := by
    refine hdels delOps _ ?_
    rw [hA]
    exact List.pairwise_lt_range _
  refine ⟨hA, hP, hP.nodup, ?_⟩
  intro vs docs embs vs' h
  exact (add_ok_ids env vs docs embs vs' h).1

/-- A one-document batch for counterexamples. -/
def vdocW (s : String) : VDocument := { content := s, metadata := [] }

/-- The claim C5 as stated is refuted: adding two documents, deleting id
0, then adding one more document yields ids `[1, 1]` — neither strictly
increasing nor unique — because the next id is computed as
`len(documents)` which shrank below the maximum assigned id. -/
theorem vector_store_ids_claim_fails :
    ¬ (List.Pairwise (· < ·)
        ([VecOp.add [vdocW "a", vdocW "b"] (some [[1], [1]]),
          VecOp.del [0],
          VecOp.add [vdocW "c"] (some [[1]])].foldl
          (VecOp.apply venvW) (InMemoryVectorStore.init 1)).ids ∧
      ([VecOp.add [vdocW "a", vdocW "b"] (some [[1], [1]]),
        VecOp.del [0],
        VecOp.add [vdocW "c"] (some [[1]])].foldl
        (VecOp.apply venvW) (InMemoryVectorStore.init 1)).ids.Nodup) := by
  with_unfolding_all decide

/-- Insertion of `x` after all entries of importance ≤ its own: the
position a stable ascending sort gives to a newly appended element. -/
def insertTies (x : MemoryEntry) : List MemoryEntry → List MemoryEntry
  | [] => [x]
  | y :: ys => if impLE y x then y :: insertTies x ys else x :: y :: ys

/-- `orderedInsert` commutes with `insertTies`. -/
theorem orderedInsert_insertTies (a x : MemoryEntry) :
    ∀ l : List MemoryEntry,
      List.orderedInsert impLE a (insertTies x l)
        = insertTies x (List.orderedInsert impLE a l) := by
  intro l
  induction l with
  | nil =>
    by_cases h : impLE a x
    · simp [insertTies, List.orderedInsert, if_pos h]
    · simp [insertTies, List.orderedInsert, if_neg h]
  | cons y ys ih =>
    by_cases h1 : impLE y x
    · by_cases h2 : impLE a y
      · have h3 : impLE a x := le_trans h2 h1
        simp [insertTies, List.orderedInsert, h1, h2, h3]
      · simp [insertTies, List.orderedInsert, h1, h2, ih]
    · by_cases h2 : impLE a y
      · by_cases h3 : impLE a x
        · simp [insertTies, List.orderedInsert, h1, h2, h3]
        · simp [insertTies, List.orderedInsert, h1, h2, h3]
      · have h3 : ¬ impLE a x := by
          intro hax
          exact h2 (le_trans hax (le_of_not_le h1))
        simp [insertTies, List.orderedInsert, h1, h2, h3]

/-- Stable sort of a snoc: sorting `l ++ [x]` inserts `x` after its ties
in the sorted `l`. -/
theorem sortByImportance_append_singleton (x : MemoryEntry) :
    ∀ l : List MemoryEntry,
      ConversationMemory.sortByImportance (l ++ [x])
        = insertTies x (ConversationMemory.sortByImportance l) := by
  intro l
  induction l with
  | nil => rfl
  | cons a l ih =>
    show List.orderedInsert impLE a
        (ConversationMemory.sortByImportance (l ++ [x]))
      = insertTies x (List.orderedInsert impLE a
        (ConversationMemory.sortByImportance l))
    rw [ih, orderedInsert_insertTies]

/-- On a sorted list, dropping `m` elements before inserting a new last
element and then dropping one more is dropping `m + 1` after inserting. -/
theorem drop_insertTies (x : MemoryEntry) :
    ∀ (m : ℕ) (l : List MemoryEntry), l.Sorted impLE →
      (insertTies x (l.drop m)).drop 1 = (insertTies x l).drop (m + 1) := by
  intro m
  induction m with
  | zero => intro l _; rfl
  | succ m ih =>
    intro l hl
    cases l with
    | nil => simp [insertTies]
    | cons y ys =>
      by_cases h1 : impLE y x
      · show (insertTies x (ys.drop m)).drop 1
          = (insertTies x (y :: ys)).drop (m + 2)
        rw [ih ys (List.Sorted.of_cons hl)]
        simp [insertTies, if_pos h1]
      · show (insertTies x (ys.drop m)).drop 1
          = (insertTies x (y :: ys)).drop (m + 2)
        have hrhs : (insertTies x (y :: ys)).drop (m + 2) = ys.drop m := by
          simp [insertTies, if_neg h1]
        rw [hrhs]
        cases hd : ys.drop m with
        | nil => simp [insertTies]
        | cons z rest =>
          have hz : z ∈ ys := List.mem_of_mem_drop (hd ▸ List.mem_cons_self z rest)
          have hyz : impLE y z := List.rel_of_sorted_cons hl z hz
          have hzx : ¬ impLE z x := by
            intro hzx
            exact h1 (le_trans hyz hzx)
          simp [insertTies, if_neg hzx]

/-- The `max_entries` highest-importance entries of `l` (ascending stable
sort, keep the tail): ties among equal importances are broken by keeping
the later elements of the pre-sort order. -/
def topByImportance (k : ℕ) (l : List MemoryEntry) : List MemoryEntry :=
  (ConversationMemory.sortByImportance l).drop (l.length - k)

/-- One `add`-time eviction step on the bare entry list, as performed by
`ConversationMemory.add`: append, and when over capacity sort ascending by
importance and keep the slice `[-max_entries:]`. -/
def evictStep (k : ℕ) (s : List MemoryEntry) (e : MemoryEntry) :
    List MemoryEntry :=
  let es := s ++ [e]
  if k < es.length then pySliceLast k (ConversationMemory.sortByImportance es)
  else es

/-- Folding eviction steps from the empty list keeps exactly the
`k` highest-importance entries of everything appended (for `k ≥ 1`). -/
theorem foldl_evictStep (k : ℕ) (hk : 1 ≤ k) (l : List MemoryEntry) :
    List.foldl (evictStep k) [] l
      = if l.length ≤ k then l else topByImportance k l := by
  induction l using List.reverseRecOn with
  | nil => simp
  | append_singleton p x ih =>
    rw [List.foldl_append, List.foldl_cons, List.foldl_nil, ih]
    rcases lt_trichotomy p.length k with hp | hp | hp
    · rw [if_pos (le_of_lt hp), if_pos (by simp; omega)]
      unfold evictStep
      rw [if_neg (by simp; omega)]
    · rw [if_pos (le_of_eq hp), if_neg (by simp; omega)]
      unfold evictStep
      rw [if_pos (by simp; omega)]
      unfold pySliceLast topByImportance
      rw [if_neg (by omega)]
      simp only [List.length_append, List.length_singleton,
        List.length_insertionSort, ConversationMemory.sortByImportance]
    · rw [if_neg (by omega), if_neg (by simp; omega)]
      have hsorted : (topByImportance k p).Sorted impLE :=
        (List.sorted_insertionSort impLE p).sublist (List.drop_sublist _ _)
      have hlen : (topByImportance k p).length = k := by
        unfold topByImportance ConversationMemory.sortByImportance
        rw [List.length_drop, List.length_insertionSort]
        omega
      unfold evictStep
      rw [if_pos (by rw [List.length_append, List.length_singleton, hlen]; omega)]
      unfold pySliceLast
      rw [if_neg (by omega)]
      have hslen : (ConversationMemory.sortByImportance
          (topByImportance k p ++ [x])).length = k + 1 := by
        show (List.insertionSort impLE (topByImportance k p ++ [x])).length
          = k + 1
        rw [List.length_insertionSort, List.length_append,
          List.length_singleton, hlen]
      rw [hslen]
      have hstep : ConversationMemory.sortByImportance (topByImportance k p ++ [x])
          = insertTies x (topByImportance k p) := by
        rw [sortByImportance_append_singleton]
        rw [show ConversationMemory.sortByImportance (topByImportance k p)
          = topByImportance k p from List.Sorted.insertionSort_eq hsorted]
      rw [hstep]
      have hk1 : k + 1 - k = 1 := by omega
      rw [hk1]
      show (insertTies x ((ConversationMemory.sortByImportance p).drop
        (p.length - k))).drop 1 = topByImportance k (p ++ [x])
      rw [drop_insertTies x (p.length - k) _
        (show (ConversationMemory.sortByImportance p).Sorted impLE from
          List.sorted_insertionSort impLE p)]
      rw [← sortByImportance_append_singleton]
      unfold topByImportance
      congr 1
      simp only [List.length_append, List.length_singleton]
      omega

/-- Every `add` variant transforms the entry list by one eviction step on
the entry it creates. -/
theorem addCallE_entries (env : MemEnv) (cm : ConversationMemory)
    (c : AddCall) :
    ((ConversationMemory.addCallE env cm c).1).entries
      = evictStep cm.max_entries cm.entries
          (ConversationMemory.addCallE env cm c).2 := by
  cases c <;> rfl

/-- No `add` variant changes the capacity bound. -/
theorem addCallE_max_entries (env : MemEnv) (cm : ConversationMemory)
    (c : AddCall) :
    ((ConversationMemory.addCallE env cm c).1).max_entries
      = cm.max_entries := by
  cases c <;> rfl

/-- A run of `add` calls evolves the entry list by folding eviction steps
over the created entries, and never changes the capacity bound. -/
theorem runAdds_entries (calls : List (MemEnv × AddCall)) :
    ∀ cm : ConversationMemory,
      ((ConversationMemory.runAdds cm calls).1).entries
        = List.foldl (evictStep cm.max_entries) cm.entries
            ((ConversationMemory.runAdds cm calls).2) ∧
      ((ConversationMemory.runAdds cm calls).1).max_entries
        = cm.max_entries := by
  induction calls with
  | nil => intro cm; exact ⟨rfl, rfl⟩
  | cons p rest ih =>
    intro cm
    obtain ⟨ih1, ih2⟩ := ih (ConversationMemory.addCallE p.1 cm p.2).1
    constructor
    · show ((ConversationMemory.runAdds
          (ConversationMemory.addCallE p.1 cm p.2).1 rest).1).entries
        = List.foldl (evictStep cm.max_entries) cm.entries
            ((ConversationMemory.addCallE p.1 cm p.2).2
              :: (ConversationMemory.runAdds
                (ConversationMemory.addCallE p.1 cm p.2).1 rest).2)
      rw [List.foldl_cons, ← addCallE_entries, ih1,
        addCallE_max_entries]
    · show ((ConversationMemory.runAdds
          (ConversationMemory.addCallE p.1 cm p.2).1 rest).1).max_entries
        = cm.max_entries
      rw [ih2, addCallE_max_entries]

/-- An eviction step cannot leave more than `k ≥ 1` entries. -/
theorem evictStep_length_le (k : ℕ) (hk : 1 ≤ k) (s : List MemoryEntry)
    (e : MemoryEntry) (hs : s.length ≤ k) :
    (evictStep k s e).length ≤ k := by
  unfold evictStep
  by_cases h : k < (s ++ [e]).length
  · rw [if_pos h]
    unfold pySliceLast
    rw [if_neg (by omega)]
    show ((ConversationMemory.sortByImportance (s ++ [e])).drop _).length ≤ k
    rw [List.length_drop]
    have : (ConversationMemory.sortByImportance (s ++ [e])).length
        = (s ++ [e]).length := List.length_insertionSort _ _
    omega
  · rw [if_neg h]
    omega

/-- The claim C4, amended with `max_entries ≥ 1`: after every sequence of
`add` calls (any variant) from a fresh conversational memory of capacity
`max_entries ≥ 1`, the entry count never exceeds `max_entries`. (At
`max_entries = 0` the slice `entries[-0:]` keeps everything and the bound
fails; see the counterexample.) -/
theorem conversation_capacity_invariant (k : ℕ) (hk : 1 ≤ k) (t : ℚ)
    (calls : List (MemEnv × AddCall)) :
    ((ConversationMemory.runAdds (ConversationMemory.init k t)
      calls).1).entries.length ≤ k := by
  rw [(runAdds_entries calls (ConversationMemory.init k t)).1]
  have : ∀ (l : List MemoryEntry) (s : List MemoryEntry), s.length ≤ k →
      (List.foldl (evictStep k) s l).length ≤ k := by
    intro l
    induction l with
    | nil => intro s hs; exact hs
    | cons e rest ih =>
      intro s hs
      exact ih _ (evictStep_length_le k hk s e hs)
  exact this _ _ (by simp [ConversationMemory.init])

/-- Witness for C4: three user inputs into a capacity-2 memory leave at
most 2 entries. -/
theorem conversation_capacity_invariant_witness :
    1 ≤ 2 ∧
    ((ConversationMemory.runAdds (ConversationMemory.init 2 0)
      [(envW, AddCall.user "alpha beta"), (envW, AddCall.user "gamma delta"),
       (envW, AddCall.user "epsilon zeta")]).1).entries.length ≤ 2 :=
  ⟨by norm_num,
   conversation_capacity_invariant 2 (by norm_num) 0
     [(envW, AddCall.user "alpha beta"), (envW, AddCall.user "gamma delta"),
      (envW, AddCall.user "epsilon zeta")]⟩

/-- The claim C4 as stated (for every capacity) is refuted at
`max_entries = 0`: the Python slice `entries[-0:]` is the whole list, so
after one `add` the store holds 1 > 0 entries. -/
theorem conversation_capacity_fails_at_zero :
    ¬ ((ConversationMemory.runAdds (ConversationMemory.init 0 0)
      [(envW, AddCall.user "hi")]).1).entries.length ≤ 0 := by
  with_unfolding_all decide

/-- The claim C3, amended with `max_entries ≥ 1`: whenever the created
entries outnumber the capacity `k ≥ 1`, the surviving entries after the
run are exactly the `k` highest-importance entries among all entries added
so far — the tail of the stable ascending sort by importance, so ties
among equal importances are broken by the pre-sort order, keeping the
later-added ones. (At `max_entries = 0` the claim fails; see the
counterexample.) -/
theorem conversation_eviction_correct (k : ℕ) (hk : 1 ≤ k) (t : ℚ)
    (calls : List (MemEnv × AddCall))
    (hover : k < ((ConversationMemory.runAdds (ConversationMemory.init k t)
      calls).2).length) :
    ((ConversationMemory.runAdds (ConversationMemory.init k t)
      calls).1).entries
      = topByImportance k
          ((ConversationMemory.runAdds (ConversationMemory.init k t)
            calls).2) := by
  rw [(runAdds_entries calls (ConversationMemory.init k t)).1]
  show List.foldl (evictStep k) [] _ = _
  rw [foldl_evictStep k hk]
  rw [if_neg (by omega)]

/-- Witness for C3, the specification's own scenario: capacity 2, three
adds of importances 0.5, 0.9, 0.3 — the survivors are exactly the top-2,
i.e. the 0.5 and 0.9 entries (ascending), with the 0.3 entry evicted. -/
theorem conversation_eviction_correct_witness :
    (1 ≤ 2 ∧
      2 < ((ConversationMemory.runAdds (ConversationMemory.init 2 0)
        [(envW, AddCall.raw "apple banana" "user" [] 0.5),
         (envW, AddCall.raw "cherry date" "user" [] 0.9),
         (envW, AddCall.raw "elder fig" "user" [] 0.3)]).2).length) ∧
    ((ConversationMemory.runAdds (ConversationMemory.init 2 0)
      [(envW, AddCall.raw "apple banana" "user" [] 0.5),
       (envW, AddCall.raw "cherry date" "user" [] 0.9),
       (envW, AddCall.raw "elder fig" "user" [] 0.3)]).1).entries
      = topByImportance 2
          ((ConversationMemory.runAdds (ConversationMemory.init 2 0)
            [(envW, AddCall.raw "apple banana" "user" [] 0.5),
             (envW, AddCall.raw "cherry date" "user" [] 0.9),
             (envW, AddCall.raw "elder fig" "user" [] 0.3)]).2) :=
  ⟨⟨by norm_num, by with_unfolding_all decide⟩,
   conversation_eviction_correct 2 (by norm_num) 0 _
     (by with_unfolding_all decide)⟩

/-- The claim C3 as stated (for every capacity) is refuted at
`max_entries = 0`: one add exceeds the capacity, yet the slice
`entries[-0:]` keeps the entry instead of the claimed top-0 (empty)
selection. -/
theorem conversation_eviction_fails_at_zero :
    ¬ (((ConversationMemory.runAdds (ConversationMemory.init 0 0)
      [(envW, AddCall.raw "hello there" "user" [] 0.5)]).1).entries
      = topByImportance 0
          ((ConversationMemory.runAdds (ConversationMemory.init 0 0)
            [(envW, AddCall.raw "hello there" "user" [] 0.5)]).2)) := by
  intro h
  have h2 : (1 : ℕ) = 0 := by with_unfolding_all exact congrArg List.length h
  exact one_ne_zero h2

/-- The store after one successful one-document add, for the C5 witness. -/
def vsOneW : InMemoryVectorStore :=
  { dimension := 1, documents := [vdocW "a"], embeddings := [[1]],
    metadatas := [[]], ids := [0] }

/-- Witness for C5: a concrete successful add assigns ids
`previous_count + index`, discharging the successful-add hypothesis of the
theorem at a concrete batch. -/
theorem vector_store_ids_monotone_witness :
    (InMemoryVectorStore.init 1).add venvW [vdocW "a"] (some [[1]])
      = Except.ok vsOneW ∧
    vsOneW.ids = (InMemoryVectorStore.init 1).ids ++
      (List.range (([vdocW "a"].zip
        (InMemoryVectorStore.resolveEmbeddings venvW [vdocW "a"]
          (some [[1]]))).length)).map
        ((InMemoryVectorStore.init 1).documents.length + ·) := by
  have hok : (InMemoryVectorStore.init 1).add venvW [vdocW "a"] (some [[1]])
      = Except.ok vsOneW := by with_unfolding_all rfl
  exact ⟨hok,
    (vector_store_ids_monotone venvW 1 [] []).2.2.2 _ _ _ _ hok⟩

/-- The claim C10: for every conversational-memory state (reachable or
not, in particular states whose semantic index holds stale ids of evicted
or cleared entries) and every query, each result of `semantic_search`
carries an entry of the current entry list: stale ids are skipped during
scoring, and the `Optional`-typed lookup feeding the result pairs never
contributes `None`. -/
theorem semantic_search_results_in_entries (cm : ConversationMemory)
    (query : String) (limit : ℕ) (p : Option MemoryEntry × ℚ)
    (hp : p ∈ cm.semantic_search query limit) :
    ∃ e : MemoryEntry, p.1 = some e ∧ e ∈ cm.entries := by
  unfold ConversationMemory.semantic_search at hp
  by_cases hq : ConversationMemory.extract_keywords query 5 = []
  · rw [if_pos hq] at hp
    exact absurd hp (List.not_mem_nil p)
  · rw [if_neg hq] at hp
    dsimp only at hp
    have hp1 := List.mem_of_mem_take hp
    have hp2 := (List.mem_filter.mp hp1).1
    have hp3 := (List.Perm.mem_iff (List.perm_insertionSort scoreGE _)).mp hp2
    obtain ⟨⟨mid, s⟩, hms, hpe⟩ := List.mem_map.mp hp3
    obtain ⟨a, _, hfa⟩ := List.mem_filterMap.mp hms
    cases hfind : cm.entries.find? (fun e => e.id == a) with
    | none =>
      rw [hfind] at hfa
      exact absurd hfa (by simp)
    | some e =>
      rw [hfind] at hfa
      have hma : a = mid := congrArg Prod.fst (Option.some.inj hfa)
      refine ⟨e, ?_, List.mem_of_find?_eq_some hfind⟩
      rw [← hpe]
      show ConversationMemory.get_entry_by_id cm mid = some e
      rw [← hma]
      exact hfind

/-- The single entry of the C10 witness state. -/
def entryW : MemoryEntry :=
  { id := "id1", timestamp := 0, type := "user", content := "hello world",
    metadata := [], importance := 0.8 }

/-- A one-entry state with its id indexed under its keywords, for the C10
witness. -/
def cmOneW : ConversationMemory :=
  { max_entries := 10, entries := [entryW], session_start := 0,
    semantic_index := [("hello", ["id1"]), ("world", ["id1"])] }

/-- Witness for C10: the concrete search result of a one-entry state is a
member of the result list, and the theorem produces its entry in the
current entry list. -/
theorem semantic_search_results_in_entries_witness :
    ((some entryW, (12:ℚ) * 0.8) ∈ cmOneW.semantic_search "hello world" 10) ∧
    ∃ e : MemoryEntry, ((some entryW, (12:ℚ) * 0.8)
      : Option MemoryEntry × ℚ).1 = some e ∧ e ∈ cmOneW.entries := by
  have hres : cmOneW.semantic_search "hello world" 10
      = [(some entryW, (12:ℚ) * 0.8)] := by
    with_unfolding_all rfl
  have hmem : ((some entryW, (12:ℚ) * 0.8) : Option MemoryEntry × ℚ)
      ∈ cmOneW.semantic_search "hello world" 10 := by
    rw [hres]
    exact List.mem_singleton.mpr rfl
  exact ⟨hmem,
    semantic_search_results_in_entries cmOneW "hello world" 10 _ hmem⟩

/-- The `semantic_search` algorithm exactly as the specification describes
it: up to 5 query keywords, each weighted `len(keyword) + 1`; candidates
are the union of ids the semantic index maps any query keyword to; each
candidate entry scores the sum of the weights of the query keywords
appearing among the (up to 20) keywords of its own content, times its
importance; zero scores are dropped, the rest sorted descending and
truncated to `limit`. -/
def claimedSemanticSearch (cm : ConversationMemory) (query : String)
    (limit : ℕ) : List (MemoryEntry × ℚ) :=
  let query_keywords := ConversationMemory.extract_keywords query 5
  let matched_ids : List String :=
    ConversationMemory.matched_ids_of cm query_keywords
  let candidates := matched_ids.filterMap
    (fun mem_id => cm.entries.find? (fun e => e.id == mem_id))
  let scored := candidates.map fun e =>
    let entry_keywords := ConversationMemory.extract_keywords e.content 20
    let weight_sum : ℕ := ((query_keywords.filter
      (fun kw => decide (kw ∈ entry_keywords))).map
        (fun kw => kw.length + 1)).sum
    (e, (weight_sum : ℚ) * e.importance)
  let positive := scored.filter (fun p => decide (0 < p.2))
  (ConversationMemory.sortByScoreDesc positive).take limit

/-- The specification's algorithm amended the way the code forces: a query
keyword's weight counts toward a candidate's score only when that keyword
is also present in `semantic_index` (the code gives weight 0 to query
keywords absent from the index, even when they appear among the entry's
own keywords). -/
def amendedSemanticSearch (cm : ConversationMemory) (query : String)
    (limit : ℕ) : List (MemoryEntry × ℚ) :=
  let query_keywords := ConversationMemory.extract_keywords query 5
  let matched_ids : List String :=
    ConversationMemory.matched_ids_of cm query_keywords
  let candidates := matched_ids.filterMap
    (fun mem_id => cm.entries.find? (fun e => e.id == mem_id))
  let scored := candidates.map fun e =>
    let entry_keywords := ConversationMemory.extract_keywords e.content 20
    let weight_sum : ℕ := ((query_keywords.filter
      (fun kw => decide (kw ∈ entry_keywords)
        && (cm.semantic_index.lookup kw).isSome)).map
        (fun kw => kw.length + 1)).sum
    (e, (weight_sum : ℚ) * e.importance)
  let positive := scored.filter (fun p => decide (0 < p.2))
  (ConversationMemory.sortByScoreDesc positive).take limit

/-- An entry whose content has 11 distinct keywords; only the 10 most
frequent (here: the first 10) are indexed at `add` time. -/
def entryElevenW : MemoryEntry :=
  { id := "e1", timestamp := 0, type := "user",
    content :=
      "alpha bravo charlie delta echo foxtrot golf hotel india juliet kilo",
    metadata := [], importance := 0.5 }

/-- The state holding `entryElevenW` with its top-10 keywords indexed —
"kilo", the 11th keyword, is not in the semantic index. -/
def cmElevenW : ConversationMemory :=
  { max_entries := 100, entries := [entryElevenW], session_start := 0,
    semantic_index :=
      [("alpha", ["e1"]), ("bravo", ["e1"]), ("charlie", ["e1"]),
       ("delta", ["e1"]), ("echo", ["e1"]), ("foxtrot", ["e1"]),
       ("golf", ["e1"]), ("hotel", ["e1"]), ("india", ["e1"]),
       ("juliet", ["e1"])] }

set_option maxRecDepth 40000 in
/-- The claim C8 as stated is refuted: on the query "alpha kilo" the code
scores the candidate 6 · 0.5 = 3 (only the indexed keyword "alpha" has a
recorded weight; "kilo" appears among the entry's 20 keywords but is
absent from `semantic_index`, so `keyword_scores.get` yields 0), while the
claimed algorithm scores it (6 + 5) · 0.5 = 5.5. -/
theorem semantic_search_spec_mismatch :
    ¬ (cmElevenW.semantic_search "alpha kilo" 10
      = (claimedSemanticSearch cmElevenW "alpha kilo" 10).map
          (fun p => (some p.1, p.2))) := by
  intro h
  have h1 : cmElevenW.semantic_search "alpha kilo" 10
      = [(some entryElevenW, (6:ℚ) * 0.5)] := by
    with_unfolding_all rfl
  have h2 : (claimedSemanticSearch cmElevenW "alpha kilo" 10).map
      (fun p => ((some p.1 : Option MemoryEntry), p.2))
      = [(some entryElevenW, (11:ℚ) * 0.5)] := by
    with_unfolding_all rfl
  rw [h1, h2] at h
  have h3 : ((6:ℚ) * 0.5) = ((11:ℚ) * 0.5) :=
    congrArg (fun l => (l.headD (none, 0)).2) h
  norm_num at h3

/-- First-occurrence deduplication yields duplicate-free lists avoiding
the seen set. -/
theorem dedupFirst_nodup_aux [DecidableEq α] :
    ∀ (l seen : List α), (KeywordExtraction.dedupFirst seen l).Nodup ∧
      ∀ x ∈ KeywordExtraction.dedupFirst seen l, x ∉ seen := by
  intro l
  induction l with
  | nil => intro seen; exact ⟨List.nodup_nil, by simp [KeywordExtraction.dedupFirst]⟩
  | cons x xs ih =>
    intro seen
    by_cases hx : x ∈ seen
    · simpa [KeywordExtraction.dedupFirst, hx] using ih seen
    · simp only [KeywordExtraction.dedupFirst, if_neg hx]
      obtain ⟨hn, hm⟩ := ih (x :: seen)
      refine ⟨List.nodup_cons.mpr
        ⟨fun hxx => (hm x hxx) (List.mem_cons_self x seen), hn⟩, ?_⟩
      intro y hy
      rcases List.mem_cons.mp hy with rfl | hy'
      · exact hx
      · intro hys
        exact hm y hy' (List.mem_cons_of_mem x hys)

/-- Extracted keyword lists are duplicate-free. -/
theorem extract_keywords_nodup (text : String) (n : ℕ) :
    (ConversationMemory.extract_keywords text n).Nodup := by
  unfold ConversationMemory.extract_keywords
  refine List.Nodup.sublist (List.take_sublist _ _) ?_
  exact (List.perm_insertionSort _ _).nodup_iff.mpr
    (dedupFirst_nodup_aux _ []).1

/-- Lookup in the `keyword_scores` association list built from the query
keywords: present exactly for query keywords found in the semantic index,
with weight `len + 1`. -/
theorem kscores_lookup (idx : List (String × List String))
    (qk : List String) (hnd : qk.Nodup) (kw : String) :
    ((qk.filterMap (fun kw2 => if (idx.lookup kw2).isSome then
        some (kw2, kw2.length + 1) else none)).lookup kw)
      = if kw ∈ qk ∧ (idx.lookup kw).isSome then some (kw.length + 1)
        else none := by
  induction qk with
  | nil => simp
  | cons q rest ih =>
    have hq : q ∉ rest := (List.nodup_cons.mp hnd).1
    have ihr := ih (List.nodup_cons.mp hnd).2
    by_cases hidx : (idx.lookup q).isSome = true
    · simp only [List.filterMap_cons, hidx, if_true]
      by_cases hkw : kw = q
      · subst hkw
        simp [List.lookup, hidx]
      · have hbeq : (kw == q) = false := beq_eq_false_iff_ne.mpr hkw
        simp only [List.lookup, hbeq, ihr]
        exact if_congr (by simp [List.mem_cons, hkw]) rfl rfl
    · simp only [List.filterMap_cons, hidx, Bool.false_eq_true, if_false]
      rw [ihr]
      by_cases hkw : kw = q
      · subst hkw
        rw [if_neg (fun h => hidx h.2), if_neg (fun h => hidx h.2)]
      · exact if_congr (by simp [List.mem_cons, hkw]) rfl rfl

/-- Summing an if-guarded map is summing the map over the filter. -/
theorem sum_map_ite_filter (l : List String) (p : String → Bool)
    (f : String → ℕ) :
    (l.map (fun kw => if p kw then f kw else 0)).sum
      = ((l.filter p).map f).sum := by
  induction l with
  | nil => rfl
  | cons x xs ih =>
    cases hx : p x <;>
      simp [List.filter_cons, hx, ih]

/-- The per-candidate score the code computes — entry keywords summed with
`keyword_scores.get(kw, 0)` under a query-membership guard — equals the
amended specification's sum: the weights of the query keywords that appear
among the entry's keywords and are present in the semantic index. -/
theorem score_sum_eq (idx : List (String × List String))
    (qk ek : List String) (hqk : qk.Nodup) (hek : ek.Nodup) :
    (ek.map (fun kw => if kw ∈ qk then
      (((qk.filterMap (fun kw2 => if (idx.lookup kw2).isSome then
        some (kw2, kw2.length + 1) else none)).lookup kw).getD 0)
      else 0)).sum
    = ((qk.filter (fun kw => decide (kw ∈ ek)
        && (idx.lookup kw).isSome)).map (fun kw => kw.length + 1)).sum := by
  have hfun : ∀ kw, (if kw ∈ qk then
      (((qk.filterMap (fun kw2 => if (idx.lookup kw2).isSome then
        some (kw2, kw2.length + 1) else none)).lookup kw).getD 0)
      else 0)
      = if (decide (kw ∈ qk) && (idx.lookup kw).isSome : Bool) then
          kw.length + 1 else 0 := by
    intro kw
    by_cases hkw : kw ∈ qk
    · rw [if_pos hkw, kscores_lookup idx qk hqk kw]
      by_cases hidx : (idx.lookup kw).isSome = true
      · rw [if_pos ⟨hkw, hidx⟩]
        simp [hkw, hidx]
      · rw [if_neg (fun h => hidx h.2)]
        simp [hkw, hidx]
    · simp [hkw]
  rw [List.map_congr_left (fun kw _ => hfun kw)]
  rw [sum_map_ite_filter ek (fun kw => decide (kw ∈ qk)
    && (idx.lookup kw).isSome) (fun kw => kw.length + 1)]
  have hperm : List.Perm (ek.filter (fun kw => decide (kw ∈ qk)
      && (idx.lookup kw).isSome))
      (qk.filter (fun kw => decide (kw ∈ ek)
      && (idx.lookup kw).isSome)) := by
    refine (List.perm_ext_iff_of_nodup (hek.filter _) (hqk.filter _)).mpr ?_
    intro a
    simp only [List.mem_filter, Bool.and_eq_true, decide_eq_true_eq]
    tauto
  rw [List.Perm.sum_eq (hperm.map _)]

/-- `orderedInsert` by score commutes with mapping a function over the
first components. -/
theorem orderedInsert_map_fst {α β : Type} (f : α → β) (a : α × ℚ) :
    ∀ l : List (α × ℚ),
      List.orderedInsert scoreGE (f a.1, a.2) (l.map (fun p => (f p.1, p.2)))
        = (List.orderedInsert scoreGE a l).map (fun p => (f p.1, p.2)) := by
  intro l
  induction l with
  | nil => rfl
  | cons b l ih =>
    simp only [List.map_cons, List.orderedInsert]
    by_cases h : scoreGE a b
    · rw [if_pos (show scoreGE (f a.1, a.2) (f b.1, b.2) from h), if_pos h]
      rfl
    · rw [if_neg (show ¬ scoreGE (f a.1, a.2) (f b.1, b.2) from h),
        if_neg h, List.map_cons, ih]

/-- Sorting by score commutes with mapping a function over the first
components. -/
theorem sortByScoreDesc_map_fst {α β : Type} (f : α → β) :
    ∀ l : List (α × ℚ),
      ConversationMemory.sortByScoreDesc (l.map (fun p => (f p.1, p.2)))
        = (ConversationMemory.sortByScoreDesc l).map (fun p => (f p.1, p.2)) := by
  intro l
  induction l with
  | nil => rfl
  | cons a l ih =>
    show List.orderedInsert scoreGE (f a.1, a.2)
        (ConversationMemory.sortByScoreDesc (l.map (fun p => (f p.1, p.2))))
      = (List.orderedInsert scoreGE a
          (ConversationMemory.sortByScoreDesc l)).map (fun p => (f p.1, p.2))
    rw [ih, orderedInsert_map_fst]

/-- Inserting an element every kept element is below places it in front. -/
theorem orderedInsert_of_forall {α : Type} (x : α × ℚ)
    (m : List (α × ℚ)) (hm : ∀ z ∈ m, scoreGE x z) :
    List.orderedInsert scoreGE x m = x :: m := by
  cases m with
  | nil => rfl
  | cons z rest =>
    simp only [List.orderedInsert,
      if_pos (hm z (List.mem_cons_self z rest))]

/-- Filtering an ordered insertion into a sorted list filters around the
inserted element. -/
theorem filter_orderedInsert_sorted {α : Type} (p : α × ℚ → Bool)
    (x : α × ℚ) :
    ∀ l : List (α × ℚ), l.Sorted scoreGE →
      (List.orderedInsert scoreGE x l).filter p
        = if p x then List.orderedInsert scoreGE x (l.filter p)
          else l.filter p := by
  intro l
  induction l with
  | nil =>
    intro _
    simp only [List.orderedInsert, List.filter_cons, List.filter_nil]
  | cons y ys ih =>
    intro hl
    have hys : ys.Sorted scoreGE := List.Sorted.of_cons hl
    by_cases h : scoreGE x y
    · rw [show List.orderedInsert scoreGE x (y :: ys) = x :: y :: ys from
        by simp [List.orderedInsert, h]]
      cases hpx : p x with
      | true =>
        rw [if_pos rfl]
        have hkeep : ∀ z ∈ (y :: ys).filter p, scoreGE x z := by
          intro z hz
          have hz' := (List.mem_filter.mp hz).1
          rcases List.mem_cons.mp hz' with rfl | hz''
          · exact h
          · exact le_trans (List.rel_of_sorted_cons hl z hz'') h
        rw [orderedInsert_of_forall x _ hkeep]
        simp [List.filter_cons, hpx]
      | false =>
        simp [List.filter_cons, hpx]
    · rw [show List.orderedInsert scoreGE x (y :: ys)
        = y :: List.orderedInsert scoreGE x ys from
        by simp [List.orderedInsert, h]]
      rw [List.filter_cons, List.filter_cons, ih hys]
      cases hpy : p y <;> cases hpx : p x <;>
        simp [hpy, hpx, List.orderedInsert, h]

/-- Sorting by score commutes with filtering. -/
theorem sortByScoreDesc_filter {α : Type} (p : α × ℚ → Bool) :
    ∀ l : List (α × ℚ),
      ConversationMemory.sortByScoreDesc (l.filter p)
        = (ConversationMemory.sortByScoreDesc l).filter p := by
  intro l
  induction l with
  | nil => rfl
  | cons a l ih =>
    have hsorted : (ConversationMemory.sortByScoreDesc l).Sorted scoreGE :=
      List.sorted_insertionSort scoreGE l
    cases hpa : p a with
    | true =>
      show ConversationMemory.sortByScoreDesc (List.filter p (a :: l))
        = (List.orderedInsert scoreGE a
            (ConversationMemory.sortByScoreDesc l)).filter p
      rw [List.filter_cons, hpa, if_pos rfl,
        filter_orderedInsert_sorted p a _ hsorted, if_pos hpa]
      show List.orderedInsert scoreGE a
          (ConversationMemory.sortByScoreDesc (l.filter p)) = _
      rw [ih]
    | false =>
      show ConversationMemory.sortByScoreDesc (List.filter p (a :: l))
        = (List.orderedInsert scoreGE a
            (ConversationMemory.sortByScoreDesc l)).filter p
      rw [List.filter_cons, hpa,
        filter_orderedInsert_sorted p a _ hsorted, hpa]
      simp only [Bool.false_eq_true, if_false]
      exact ih

/-- The scored-id list of `semantic_search`, mapped through the entry
lookup, is the candidate-entry list paired with its scores. -/
theorem entry_scores_map (entries : List MemoryEntry) (S : MemoryEntry → ℚ) :
    ∀ matched : List String,
      ((matched.filterMap (fun mem_id =>
        match entries.find? (fun e => e.id == mem_id) with
        | some entry => some (mem_id, S entry)
        | none => none)).map
          (fun p => (entries.find? (fun e => e.id == p.1), p.2)))
      = (matched.filterMap (fun mem_id =>
          entries.find? (fun e => e.id == mem_id))).map
          (fun e => ((some e : Option MemoryEntry), S e)) := by
  intro matched
  induction matched with
  | nil => rfl
  | cons a rest ih =>
    cases hf : entries.find? (fun e => e.id == a) with
    | none =>
      simp only [List.filterMap_cons, hf]
      exact ih
    | some e =>
      simp only [List.filterMap_cons, hf, List.map_cons]
      rw [ih]

/-- Filtering positive scores commutes with mapping over first
components. -/
theorem filter_pos_map_fst {α β : Type} (f : α → β) (l : List (α × ℚ)) :
    (l.map (fun p => (f p.1, p.2))).filter (fun p => decide (0 < p.2))
      = (l.filter (fun p => decide (0 < p.2))).map (fun p => (f p.1, p.2)) := by
  induction l with
  | nil => rfl
  | cons a l ih =>
    simp only [List.map_cons, List.filter_cons]
    cases h : decide (0 < a.2) <;> simp [h, ih]

/-- The whole sort-filter-truncate pipeline commutes with mapping over
first components, with the filter applied before or after the stable
sort. -/
theorem pipeline_eq {α β : Type} (f : α → β) (l : List (α × ℚ)) (n : ℕ) :
    ((ConversationMemory.sortByScoreDesc
      (l.map (fun p => (f p.1, p.2)))).filter
        (fun p => decide (0 < p.2))).take n
    = ((ConversationMemory.sortByScoreDesc
        (l.filter (fun p => decide (0 < p.2)))).take n).map
        (fun p => (f p.1, p.2)) := by
  rw [sortByScoreDesc_map_fst, filter_pos_map_fst, sortByScoreDesc_filter,
    List.map_take]

/-- The claim C8, amended: `semantic_search` returns (up to the
`Optional` wrapping of the looked-up entries) exactly the specification's
algorithm with one correction — a query keyword's weight counts toward a
candidate's score only when that keyword is itself present in
`semantic_index`; query keywords absent from the index contribute 0 even
when they appear among the candidate's own keywords. -/
theorem semantic_search_eq_amended (cm : ConversationMemory) (query : String)
    (limit : ℕ) :
    cm.semantic_search query limit
      = (amendedSemanticSearch cm query limit).map
          (fun p => ((some p.1 : Option MemoryEntry), p.2)) := by
  unfold ConversationMemory.semantic_search amendedSemanticSearch
  by_cases hq : ConversationMemory.extract_keywords query 5 = []
  · rw [if_pos hq, hq]
    simp [ConversationMemory.matched_ids_of, ConversationMemory.sortByScoreDesc,
      List.insertionSort]
  · rw [if_neg hq]
    dsimp only
    have hscore : ∀ e : MemoryEntry,
        ConversationMemory.entry_match_score cm
          (ConversationMemory.extract_keywords query 5) e
        = (((((ConversationMemory.extract_keywords query 5).filter
            (fun kw => decide (kw ∈ ConversationMemory.extract_keywords
              e.content 20)
              && (cm.semantic_index.lookup kw).isSome)).map
            (fun kw => kw.length + 1)).sum : ℕ) : ℚ) * e.importance := by
      intro e
      unfold ConversationMemory.entry_match_score
        ConversationMemory.keyword_scores_of
      dsimp only
      rw [score_sum_eq cm.semantic_index _ _
        (extract_keywords_nodup query 5) (extract_keywords_nodup e.content 20)]
    have hES :
        (((ConversationMemory.matched_ids_of cm
          (ConversationMemory.extract_keywords query 5)).filterMap
          (fun mem_id =>
            match cm.entries.find? (fun e => e.id == mem_id) with
            | some entry =>
              some (mem_id, ConversationMemory.entry_match_score cm
                (ConversationMemory.extract_keywords query 5) entry)
            | none => none)).map
          (fun p => (ConversationMemory.get_entry_by_id cm p.1, p.2)))
        = (((ConversationMemory.matched_ids_of cm
            (ConversationMemory.extract_keywords query 5)).filterMap
            (fun mem_id => cm.entries.find? (fun e => e.id == mem_id))).map
            (fun e =>
              (e, (((((ConversationMemory.extract_keywords query 5).filter
                (fun kw => decide (kw ∈ ConversationMemory.extract_keywords
                  e.content 20)
                  && (cm.semantic_index.lookup kw).isSome)).map
                (fun kw => kw.length + 1)).sum : ℕ) : ℚ) * e.importance))).map
            (fun p => ((some p.1 : Option MemoryEntry), p.2)) := by
      unfold ConversationMemory.get_entry_by_id
      rw [entry_scores_map cm.entries
        (ConversationMemory.entry_match_score cm
          (ConversationMemory.extract_keywords query 5))]
      rw [List.map_map]
      exact List.map_congr_left (fun e _ => by
        show ((some e : Option MemoryEntry),
          ConversationMemory.entry_match_score cm _ e) = _
        rw [hscore e]
        rfl)
    rw [hES]
    exact pipeline_eq (fun e => (some e : Option MemoryEntry)) _ limit
